import Mathlib

/-!
# DumpDisk: a verification development

Shallow embedding of the two source files of the repository

* `dumpdisk_linux.go`: `parseBlockSize`, the block-size check of `main`,
  the sequential `cloneDisk` and `computeSHA256`;
* `dumpdisk_win.go`: the raw-device `cloneDisk` and `computeSHA256`.

Conventions.

* A Go `string` is modelled by its sequence of runes (`List Char`); a byte
  is a `Nat`.
* Go `int` and `int64` are 64 bit two's complement integers.  They are
  modelled by `Int`, and every arithmetic operation that can leave the range
  is followed by `wrap64`.
* The operating system (files, devices) is an explicit environment: the
  outcome of every `Read`, `Write`, `ReadFile` and `SetFilePointerEx` call is
  supplied by the environment, the code only decides what to do with it.
-/

namespace DumpDisk

/-! ## Machine integers -/

/-- Two's complement wrap-around of a mathematical integer to the range of a
Go `int64` (and of `int` on 64 bit targets). -/
def wrap64 (x : Int) : Int := (x + 2 ^ 63) % 2 ^ 64 - 2 ^ 63

/-- The values a Go `int64` can hold. -/
def inInt64 (x : Int) : Prop := -(2 ^ 63) ≤ x ∧ x < 2 ^ 63

instance (x : Int) : Decidable (inInt64 x) := by
  unfold inInt64; infer_instance

/-! ## Library functions used by `parseBlockSize` -/

/-- ASCII part of `unicode.ToUpper`: `if 'a' <= r && r <= 'z' { r -= 'a' - 'A' }`. -/
def asciiUpper (c : Char) : Char :=
  if 97 ≤ c.toNat ∧ c.toNat ≤ 122 then Char.ofNat (c.toNat - 32) else c

/-- The function `unicode.ToUpper`.  Runes up to `unicode.MaxASCII` are handled by
the explicit comparison above; for the other runes the library consults its
case tables, which are the parameter `table`. -/
def toUpperRune (table : Char → Char) (c : Char) : Char :=
  if c.toNat < 128 then asciiUpper c else table c

/-- The function `strings.ToUpper`, rune by rune. -/
def toUpper (table : Char → Char) (s : List Char) : List Char :=
  s.map (toUpperRune table)

/-- The function `strings.HasSuffix`:
`len(s) >= len(suffix) && s[len(s)-len(suffix):] == suffix`. -/
def hasSuffix (s suffix : List Char) : Bool :=
  decide (suffix.length ≤ s.length) && (s.drop (s.length - suffix.length) == suffix)

/-- The function `strings.TrimSuffix`:
`if HasSuffix(s, suffix) { return s[:len(s)-len(suffix)] }; return s`. -/
def trimSuffix (s suffix : List Char) : List Char :=
  if hasSuffix s suffix then s.take (s.length - suffix.length) else s

/-- The two errors of package `strconv`: `ErrSyntax` and `ErrRange`. -/
inductive NumError where
  | syntaxErr
  | rangeErr
  deriving DecidableEq, Repr

/-- Value of a decimal digit, `none` for any other rune. -/
def digitVal (c : Char) : Option Nat :=
  if 48 ≤ c.toNat ∧ c.toNat ≤ 57 then some (c.toNat - 48) else none

/-- The digit loop of `strconv.ParseUint(s, 10, 64)`: a rune that is not a
digit is a syntax error, a value above `1<<64 - 1` is a range error, whichever
comes first from the left. -/
def scanDigits : List Char → Nat → Except NumError Nat
  | [], n => .ok n
  | c :: cs, n =>
    match digitVal c with
    | none => .error .syntaxErr
    | some d =>
      if 2 ^ 64 ≤ n * 10 + d then .error .rangeErr else scanDigits cs (n * 10 + d)

/-- The function `strconv.Atoi` for a 64 bit `int`: an optional sign, at least one
decimal digit, nothing else; the value has to fit `int`. -/
def atoi (s : List Char) : Except NumError Int :=
  match s with
  | [] => .error .syntaxErr
  | c :: rest =>
    let digits := if c = '-' ∨ c = '+' then rest else s
    if digits = [] then .error .syntaxErr
    else
      match scanDigits digits 0 with
      | .error e => .error e
      | .ok un =>
        if c = '-' then
          if 2 ^ 63 < un then .error .rangeErr else .ok (-(un : Int))
        else
          if 2 ^ 63 ≤ un then .error .rangeErr else .ok (un : Int)

/-! ## `parseBlockSize` and the check of `main` (dumpdisk_linux.go) -/

/-- The function `parseBlockSize`: the string is upper-cased, one suffix `K`, `M` or `G`
selects the multiplier and is trimmed, the rest goes through `strconv.Atoi`, and
the result is the `int` product `val * multiplier`. -/
def parseBlockSize (table : Char → Char) (bs : String) : Except NumError Int :=
  let bs := toUpper table bs.toList
  let r : Int × List Char :=
    if hasSuffix bs ['K'] then (1024, trimSuffix bs ['K'])
    else if hasSuffix bs ['M'] then (1024 * 1024, trimSuffix bs ['M'])
    else if hasSuffix bs ['G'] then (1024 * 1024 * 1024, trimSuffix bs ['G'])
    else (1, bs)
  match atoi r.2 with
  | .error e => .error e
  | .ok val => .ok (wrap64 (val * r.1))

/-- The validation of `main` before any file is opened:
`blockSize, err := parseBlockSize(*bsFlag); if err != nil || blockSize <= 0 { ...; return }`.
The result is the block size `main` goes on with, `none` when it stops with
"invalid block size". -/
def mainBlockSize (table : Char → Char) (bsFlag : String) : Option Int :=
  match parseBlockSize table bsFlag with
  | .error _ => none
  | .ok blockSize => if blockSize ≤ 0 then none else some blockSize


/-- A case table without entries: every rune above `unicode.MaxASCII` is its own
upper case.  The strings of the concrete examples are ASCII, no table is
consulted for them. -/
def noCaseTable : Char → Char := fun c => c

/-! ## Specification side of the block-size syntax -/

/-- A decimal digit. -/
def isDigit (c : Char) : Prop := 48 ≤ c.toNat ∧ c.toNat ≤ 57

instance (c : Char) : Decidable (isDigit c) := by
  unfold isDigit; infer_instance

/-- Value of a digit string read in base ten, continuing from `n`. -/
def decimalFrom (n : Nat) (ds : List Char) : Nat :=
  ds.foldl (fun a c => a * 10 + (c.toNat - 48)) n

/-- The integer written by an optional sign followed by the digits `ds`. -/
def signedValue (sign ds : List Char) : Int :=
  if sign = ['-'] then -(decimalFrom 0 ds : Int) else (decimalFrom 0 ds : Int)

/-- The binary multiplier the specification attaches to a suffix: 1 for no suffix,
1024 for K, 1024*1024 for M, 1024*1024*1024 for G, in either letter case. -/
def suffixMultiplier (suffix : List Char) : Option Int :=
  if suffix = [] then some 1
  else if suffix = ['K'] ∨ suffix = ['k'] then some 1024
  else if suffix = ['M'] ∨ suffix = ['m'] then some (1024 * 1024)
  else if suffix = ['G'] ∨ suffix = ['g'] then some (1024 * 1024 * 1024)
  else none

/-! ## Sequential variant (dumpdisk_linux.go): `cloneDisk` and `computeSHA256` -/

namespace Linux

/-- The `error` a `Read` call returns: `nil`, `io.EOF`, or anything else. -/
inductive ReadErr where
  | nil
  | eof
  | other
  deriving DecidableEq, Repr

/-- What one call `in.Read(buf)` returns: the bytes it put at the start of `buf` (their
number is `n`) and the error.  The code sees at most `len(buf)` of them. -/
structure ReadOutcome where
  data : List Nat
  err : ReadErr
  deriving DecidableEq, Repr

/-- The environment of one pass through the loop of `cloneDisk`: the outcome of
`in.Read(buf)` and the outcome of `out.Write(buf[:n])` in case the pass calls it.
`writeErr = none` is `err2 == nil` (all bytes written); `writeErr = some k` is
`err2 != nil` with the first `k` bytes having reached the file. -/
structure Iteration where
  read : ReadOutcome
  writeErr : Option Nat
  deriving DecidableEq, Repr

/-- The I/O calls of the loop, in the order they are made. -/
inductive Event where
  | read
  | write (data : List Nat)
  deriving DecidableEq, Repr

/-- How `cloneDisk` ends.  `running` stands for a loop that has used up the finite
list of outcomes it was given without reaching a `return` or `break`. -/
inductive Outcome where
  | returnedNil
  | openError
  | createError
  | writeError
  | readError
  | panicked
  | running
  deriving DecidableEq, Repr

/-- The variables of `cloneDisk` and the content of the destination file, with the
I/O calls made so far. -/
structure CopyState where
  dest : List Nat
  totalCopied : Int
  calls : List Event
  deriving DecidableEq, Repr

/-- State at loop entry: empty destination, `totalCopied = 0`. -/
def CopyState.init : CopyState := ⟨[], 0, []⟩

/-- The loop of `cloneDisk` (lines 100 to 120) over the outcomes of its I/O calls.
The bytes of a read are written before the error of that read is looked at. -/
def cloneLoop (blockSize : Nat) : List Iteration → CopyState → Outcome × CopyState
  | [], s => (.running, s)
  | it :: rest, s =>
    let buf := it.read.data.take blockSize
    let s1 : CopyState := { s with calls := s.calls ++ [.read] }
    if 0 < buf.length then
      match it.writeErr with
      | some k =>
        (.writeError,
          { s1 with dest := s1.dest ++ buf.take k, calls := s1.calls ++ [.write buf] })
      | none =>
        let s2 : CopyState :=
          { dest := s1.dest ++ buf
            totalCopied := wrap64 (s1.totalCopied + buf.length)
            calls := s1.calls ++ [.write buf] }
        match it.read.err with
        | .nil => cloneLoop blockSize rest s2
        | .eof => (.returnedNil, s2)
        | .other => (.readError, s2)
    else
      match it.read.err with
      | .nil => cloneLoop blockSize rest s1
      | .eof => (.returnedNil, s1)
      | .other => (.readError, s1)

/-- The environment of a run of `cloneDisk`: whether `os.Open` and `os.Create`
fail, and the outcomes of the passes through the loop. -/
structure CopyEnv where
  openFails : Bool
  createFails : Bool
  iterations : List Iteration

/-- The function `cloneDisk(srcPath, dstPath, blockSize)`.  `make([]byte, blockSize)` panics for a
negative `blockSize`. -/
def cloneDisk (env : CopyEnv) (blockSize : Int) : Outcome × CopyState :=
  if env.openFails then (.openError, CopyState.init)
  else if env.createFails then (.createError, CopyState.init)
  else if blockSize < 0 then (.panicked, CopyState.init)
  else cloneLoop blockSize.toNat env.iterations CopyState.init

/-- The function `hex.EncodeToString`: two lower-case hexadecimal digits per byte. -/
def hexEncode (bytes : List Nat) : List Char :=
  let hextable : List Char := "0123456789abcdef".toList
  bytes.flatMap (fun b => [hextable.getD (b / 16 % 16) '0', hextable.getD (b % 16) '0'])

/-- How `computeSHA256` ends. -/
inductive HashOutcome where
  | digest (hex : List Char)
  | openError
  | readError
  | panicked
  | running
  deriving DecidableEq, Repr

/-- The loop of `computeSHA256` (lines 68 to 79).  `hashed` is the byte stream
handed to `hash.Write` so far; the result of the loop is the stream at the
`break`, or how the function returned before. -/
def hashLoop (blockSize : Nat) : List ReadOutcome → List Nat → HashOutcome ⊕ List Nat
  | [], _ => .inl .running
  | r :: rest, hashed =>
    let buf := r.data.take blockSize
    let hashed1 := if 0 < buf.length then hashed ++ buf else hashed
    match r.err with
    | .nil => hashLoop blockSize rest hashed1
    | .eof => .inr hashed1
    | .other => .inl .readError

/-- The function `computeSHA256(path, blockSize)`.  The function `sha256` is the digest
function of `crypto/sha256`: `hash.Sum(nil)` after the writes is the digest of their
concatenation. -/
def computeSHA256 (sha256 : List Nat → List Nat) (openFails : Bool)
    (reads : List ReadOutcome) (blockSize : Int) : HashOutcome :=
  if openFails then .openError
  else if blockSize < 0 then .panicked
  else
    match hashLoop blockSize.toNat reads [] with
    | .inl o => o
    | .inr hashed => .digest (hexEncode (sha256 hashed))

/-- How `os.File.Read` delivers a file whose content is the concatenation of
`chunks`: chunk after chunk with a `nil` error, then `0, io.EOF`. -/
def fileReads (chunks : List (List Nat)) : List ReadOutcome :=
  chunks.map (fun c => ⟨c, .nil⟩) ++ [⟨[], .eof⟩]

/-- A run of `cloneDisk` in which no call fails: the source is delivered as by
`fileReads` and every write succeeds. -/
def faultFree (chunks : List (List Nat)) : CopyEnv :=
  { openFails := false
    createFails := false
    iterations := (fileReads chunks).map (fun r => ⟨r, none⟩) }

/-- The data of the `Write` calls among the I/O calls, in order. -/
def writesOf : List Event → List (List Nat)
  | [] => []
  | .read :: es => writesOf es
  | .write d :: es => d :: writesOf es

/-- The number of `Read` calls among the I/O calls. -/
def readCount : List Event → Nat
  | [] => 0
  | .read :: es => readCount es + 1
  | .write _ :: es => readCount es

/-- A stand-in for the digest function in concrete examples: the length of the
message and the sum of its bytes, each reduced to one byte. -/
def sampleDigest (bytes : List Nat) : List Nat :=
  [bytes.length % 256, bytes.sum % 256]

/-- A source of 10 MiB of zero bytes, delivered in ten chunks of 1 MiB. -/
def tenMiB : List (List Nat) := List.replicate 10 (List.replicate 1048576 0)

/-- The same 10 MiB of zero bytes in twenty chunks of 512 KiB. -/
def tenMiBHalves : List (List Nat) := List.replicate 20 (List.replicate 524288 0)

/-- The pass `it` calls `out.Write` and the call returns an error. -/
def writeFails (blockSize : Nat) (it : Iteration) : Bool :=
  decide (0 < (it.read.data.take blockSize).length) && it.writeErr.isSome

/-- The state after one pass that does not leave the loop: the read is logged,
and the bytes of the read, if any, are appended to the destination and counted. -/
def passOne (blockSize : Nat) (it : Iteration) (s : CopyState) : CopyState :=
  let buf := it.read.data.take blockSize
  if 0 < buf.length then
    { dest := s.dest ++ buf
      totalCopied := wrap64 (s.totalCopied + buf.length)
      calls := s.calls ++ [.read] ++ [.write buf] }
  else { s with calls := s.calls ++ [.read] }

/-- The state after the passes `its`, none of which leaves the loop. -/
def passThrough (blockSize : Nat) : List Iteration → CopyState → CopyState
  | [], s => s
  | it :: rest, s => passThrough blockSize rest (passOne blockSize it s)

end Linux

/-! ## Raw-device variant (dumpdisk_win.go): `cloneDisk` and `computeSHA256` -/

namespace Win

/-- Length of the buffer `block := make([]byte, 1024*1024)`. -/
def blockLen : Nat := 1024 * 1024

/-- What one call `syscall.ReadFile(handle, block[:toRead], &bytesRead, nil)` returns:
whether `err != nil`, and the bytes it stored at the start of `block` (their number
is `bytesRead`).  The code sees at most `toRead` of them. -/
structure ReadResult where
  failed : Bool
  data : List Nat
  deriving DecidableEq, Repr

/-- The environment of a run.  The outcome of each system call may depend on the
number of the pass through the loop (starting at 0) and on the arguments of the
call.
* `seekFails pass offset`: `setFilePointerEx(handle, offset)` returns an error;
* `read pass offset toRead`: the outcome of `ReadFile` at the position `offset`;
* `writeErr pass`: the outcome of the `out.Write` of the pass, `none` for success,
  `some k` for an error after `k` bytes have reached the file. -/
structure Device where
  seekFails : Nat → Int → Bool
  read : Nat → Int → Nat → ReadResult
  writeErr : Nat → Option Nat

/-- The system calls of the loop, in the order they are made. -/
inductive Event where
  | seek (offset : Int)
  | read (offset : Int) (toRead : Nat)
  | write (data : List Nat)
  deriving DecidableEq, Repr

/-- How a run ends.  `running` stands for a loop that has not ended within the
number of passes it was given. -/
inductive Outcome where
  | returnedNil
  | openError
  | createError
  | seekError
  | panicked
  | running
  deriving DecidableEq, Repr

/-- The variable `offset` of `cloneDisk` and the content of the destination file,
with three ghost fields: the number of passes made, the system calls made, and
the offsets at which an unreadable sector was replaced by zero bytes. -/
structure CopyState where
  offset : Int
  dest : List Nat
  pass : Nat
  calls : List Event
  unreadable : List Int
  deriving DecidableEq, Repr

/-- State at loop entry: `offset = 0`, empty destination. -/
def CopyState.init : CopyState := ⟨0, [], 0, [], []⟩

/-- The alignment correction
`if offset%sectorSize != 0 { offset = (offset / sectorSize) * sectorSize }`,
with the truncating division and remainder of Go. -/
def alignDown (sectorSize offset : Int) : Int :=
  if Int.tmod offset sectorSize ≠ 0 then wrap64 (Int.tdiv offset sectorSize * sectorSize)
  else offset

/-- The bounded read size
`toRead := len(block); if int64(toRead) > diskSize-offset { toRead = int(diskSize - offset) }`. -/
def readSize (diskSize offset : Int) : Int :=
  if (blockLen : Int) > wrap64 (diskSize - offset) then wrap64 (diskSize - offset)
  else (blockLen : Int)

/-- What `out.Write(data)` leaves in the file: all of `data`, or its first `k` bytes
when the call fails after `k` bytes. -/
def written (data : List Nat) (err : Option Nat) : List Nat :=
  match err with
  | none => data
  | some k => data.take k

/-- One pass through the loop of `cloneDisk` (lines 159 to 206), entered with
`offset < diskSize`.  The result is the state after the pass, with `some o` when
the pass leaves the function with outcome `o` and `none` when the loop goes on.
The value returned by `out.Write` is not looked at by the code. -/
def clonePass (dev : Device) (diskSize sectorSize : Int) (s : CopyState) :
    Option Outcome × CopyState :=
  if sectorSize = 0 then (some .panicked, s)
  else
    let offset := alignDown sectorSize s.offset
    let toRead := readSize diskSize offset
    let s1 : CopyState := { s with offset := offset, calls := s.calls ++ [.seek offset] }
    if dev.seekFails s.pass offset then (some .seekError, s1)
    else if toRead < 0 then (some .panicked, s1)
    else
      let r := dev.read s.pass offset toRead.toNat
      let data := r.data.take toRead.toNat
      if r.failed = true ∧ data.length = 0 then
        if sectorSize < 0 then
          (some .panicked, { s1 with calls := s1.calls ++ [.read offset toRead.toNat] })
        else
          let zero := List.replicate sectorSize.toNat 0
          (none,
            { offset := wrap64 (offset + sectorSize)
              dest := s.dest ++ written zero (dev.writeErr s.pass)
              pass := s.pass + 1
              calls := s1.calls ++ [.read offset toRead.toNat, .write zero]
              unreadable := s.unreadable ++ [offset] })
      else
        (none,
          { offset := wrap64 (offset + (data.length : Int))
            dest := s.dest ++ written data (dev.writeErr s.pass)
            pass := s.pass + 1
            calls := s1.calls ++ [.read offset toRead.toNat, .write data]
            unreadable := s.unreadable })

/-- The loop `for offset < diskSize { ... }` of `cloneDisk`, for at most `fuel` passes. -/
def cloneLoop (dev : Device) (diskSize sectorSize : Int) : Nat → CopyState → Outcome × CopyState
  | 0, s => (if s.offset < diskSize then .running else .returnedNil, s)
  | fuel + 1, s =>
    if s.offset < diskSize then
      match clonePass dev diskSize sectorSize s with
      | (some o, s1) => (o, s1)
      | (none, s1) => cloneLoop dev diskSize sectorSize fuel s1
    else (.returnedNil, s)

/-- The function `cloneDisk(source, destination, diskSize, sectorSize)`, for at most `fuel` passes
through its loop.  `openFails` and `createFails` are the outcomes of `openDisk` and
`os.Create`. -/
def cloneDisk (dev : Device) (openFails createFails : Bool) (diskSize sectorSize : Int)
    (fuel : Nat) : Outcome × CopyState :=
  if openFails then (.openError, CopyState.init)
  else if createFails then (.createError, CopyState.init)
  else cloneLoop dev diskSize sectorSize fuel CopyState.init

/-- The variable `offset` of `computeSHA256` and the byte stream handed to `h.Write`, with
the number of passes made. -/
structure HashState where
  offset : Int
  hashed : List Nat
  pass : Nat
  deriving DecidableEq, Repr

/-- One pass through the loop of `computeSHA256` (lines 225 to 251). -/
def hashPass (dev : Device) (size sectorSize : Int) (s : HashState) :
    Option Outcome × HashState :=
  if sectorSize = 0 then (some .panicked, s)
  else
    let offset := alignDown sectorSize s.offset
    let toRead := readSize size offset
    let s1 : HashState := { s with offset := offset }
    if dev.seekFails s.pass offset then (some .seekError, s1)
    else if toRead < 0 then (some .panicked, s1)
    else
      let r := dev.read s.pass offset toRead.toNat
      let data := r.data.take toRead.toNat
      if r.failed = true ∧ data.length = 0 then
        if sectorSize < 0 then (some .panicked, s1)
        else
          let zero := List.replicate sectorSize.toNat 0
          (none,
            { offset := wrap64 (offset + sectorSize)
              hashed := s.hashed ++ zero
              pass := s.pass + 1 })
      else
        (none,
          { offset := wrap64 (offset + (data.length : Int))
            hashed := s.hashed ++ data
            pass := s.pass + 1 })

/-- The loop `for offset < size { ... }` of `computeSHA256`, for at most `fuel` passes. -/
def hashLoop (dev : Device) (size sectorSize : Int) : Nat → HashState → Outcome × HashState
  | 0, s => (if s.offset < size then .running else .returnedNil, s)
  | fuel + 1, s =>
    if s.offset < size then
      match hashPass dev size sectorSize s with
      | (some o, s1) => (o, s1)
      | (none, s1) => hashLoop dev size sectorSize fuel s1
    else (.returnedNil, s)

/-- The function `computeSHA256(path, size, sectorSize)`, for at most `fuel` passes through its loop;
on `returnedNil` the digest is that of the field `hashed`. -/
def computeSHA256 (dev : Device) (openFails : Bool) (size sectorSize : Int) (fuel : Nat) :
    Outcome × HashState :=
  if openFails then (.openError, ⟨0, [], 0⟩)
  else hashLoop dev size sectorSize fuel ⟨0, [], 0⟩

/-- The read size of a pass that reads at `offset >= 0`, as a natural number:
`min(len(block), diskSize - offset)`. -/
def toReadAt (diskSize offset : Int) : Nat := (min (blockLen : Int) (diskSize - offset)).toNat

/-- The slice `block[:bytesRead]` after the read that pass `pass` issues at `offset`. -/
def bytesAt (dev : Device) (diskSize : Int) (pass : Nat) (offset : Int) : List Nat :=
  (dev.read pass offset (toReadAt diskSize offset)).data.take (toReadAt diskSize offset)

/-- The condition `err != nil && bytesRead == 0` for the read that pass `pass` issues at
`offset`: the code takes the sector for unreadable. -/
def failsAt (dev : Device) (diskSize : Int) (pass : Nat) (offset : Int) : Prop :=
  (dev.read pass offset (toReadAt diskSize offset)).failed = true ∧
    (bytesAt dev diskSize pass offset).length = 0

instance (dev : Device) (diskSize : Int) (pass : Nat) (offset : Int) :
    Decidable (failsAt dev diskSize pass offset) := by
  unfold failsAt; infer_instance

/-- Every read issued at a sector boundary below `diskSize` delivers a whole
number of sectors. -/
def wholeSectors (dev : Device) (diskSize sectorSize : Int) : Prop :=
  ∀ (pass : Nat) (offset : Int), 0 ≤ offset → offset < diskSize → sectorSize ∣ offset →
    sectorSize ∣ ((bytesAt dev diskSize pass offset).length : Int)

/-- Every read issued at a sector boundary below `diskSize` either is taken for an
unreadable sector (it fails with zero bytes), or delivers a byte count that is a
positive multiple of `sectorSize` or reaches `diskSize`. -/
def goodReads (dev : Device) (diskSize sectorSize : Int) : Prop :=
  ∀ (pass : Nat) (offset : Int), 0 ≤ offset → offset < diskSize → sectorSize ∣ offset →
    failsAt dev diskSize pass offset ∨
    (0 < (bytesAt dev diskSize pass offset).length ∧
      (sectorSize ∣ ((bytesAt dev diskSize pass offset).length : Int) ∨
        offset + ((bytesAt dev diskSize pass offset).length : Int) = diskSize))

/-- The call `e` is a `ReadFile` whose range `[offset, offset + toRead)` holds the byte `b`. -/
def readCovers (b : Int) (e : Event) : Bool :=
  match e with
  | .read off n => decide (off ≤ b ∧ b < off + (n : Int))
  | _ => false

/-- The ranges `[offset, offset + toRead)` of the `ReadFile` calls cover the byte `b`. -/
def covered (calls : List Event) (b : Int) : Prop :=
  ∃ off n, Event.read off n ∈ calls ∧ off ≤ b ∧ b < off + (n : Int)

/-- A device on which seeks and writes succeed.  A read that starts at one of the
offsets in `bad` fails with zero bytes; any other read succeeds and delivers at
most `chunk` bytes, each of them 255. -/
def sampleDevice (bad : List Int) (chunk : Nat) : Device :=
  { seekFails := fun _ _ => false
    read := fun _ offset toRead =>
      if offset ∈ bad then ⟨true, []⟩
      else ⟨false, List.replicate (min toRead chunk) 255⟩
    writeErr := fun _ => none }

/-- A device that plays back a script: the read of pass `i` returns `reads[i]` and the
write of pass `i` returns `writes[i]`, whatever the offset; past the end of the
script reads fail with zero bytes and writes succeed.  Seeks succeed. -/
def scriptDevice (reads : List ReadResult) (writes : List (Option Nat)) : Device :=
  { seekFails := fun _ _ => false
    read := fun pass _ _ => reads.getD pass ⟨true, []⟩
    writeErr := fun pass => writes.getD pass none }

/-- A device on which every read fails with zero bytes; seeks and writes succeed. -/
def deadDevice : Device :=
  { seekFails := fun _ _ => false
    read := fun _ _ _ => ⟨true, []⟩
    writeErr := fun _ => none }

/-- The starts of the sectors that lie below `offset`, in increasing order:
`0, sectorSize, 2 * sectorSize, ...`. -/
def sectorsBelow (sectorSize offset : Int) : List Int :=
  (List.range (offset / sectorSize).toNat).map (fun (i : Nat) => (i : Int) * sectorSize)

/-- The device reports the unreadable sectors of the source sector by sector, `bad x`
saying that the sector that starts at `x` is unreadable: a read issued at a sector
boundary below `diskSize` fails with zero bytes when the sector at that boundary is
unreadable; otherwise it is not taken for an unreadable sector and delivers a whole
number of sectors, none of them unreadable. -/
def sectorGranular (dev : Device) (diskSize sectorSize : Int) (bad : Int → Bool) : Prop :=
  ∀ (pass : Nat) (offset : Int), 0 ≤ offset → offset < diskSize → sectorSize ∣ offset →
    (bad offset = true → failsAt dev diskSize pass offset) ∧
    (bad offset = false →
      ¬ failsAt dev diskSize pass offset ∧
      sectorSize ∣ ((bytesAt dev diskSize pass offset).length : Int) ∧
      ∀ i : Nat, (i : Int) * sectorSize < ((bytesAt dev diskSize pass offset).length : Int) →
        bad (offset + (i : Int) * sectorSize) = false)

/-- The state of a copy in which the substituted sectors are the unreadable ones: the
offset is a sector boundary, the destination holds as many bytes as the offset
says, the recorded offsets are the starts of the unreadable sectors below the
offset, in increasing order, and each of these sectors is all zero in the
destination. -/
def ZeroFilled (S : Int) (bad : Int → Bool) (s : CopyState) : Prop :=
  0 ≤ s.offset ∧ S ∣ s.offset ∧ (s.dest.length : Int) = s.offset ∧
  s.unreadable = (sectorsBelow S s.offset).filter bad ∧
  ∀ x ∈ s.unreadable, 0 ≤ x ∧ x + S ≤ s.offset ∧
    ∀ j : Nat, (j : Int) < S → s.dest[x.toNat + j]? = some 0

/-- The number of readable sectors in a row from `offset` on, counting at most `n`. -/
def goodRun (bad : Int → Bool) (sectorSize : Int) : Nat → Int → Nat
  | 0, _ => 0
  | n + 1, offset =>
    if bad offset then 0 else goodRun bad sectorSize n (offset + sectorSize) + 1

/-- A device on which seeks and writes succeed.  A read that starts at an unreadable
sector fails with zero bytes; any other read delivers the readable sectors in a row
from its offset on, as many whole sectors as fit in `toRead` and in `chunk` bytes,
each byte 255. -/
def sectorDevice (bad : Int → Bool) (sectorSize : Int) (chunk : Nat) : Device :=
  { seekFails := fun _ _ => false
    read := fun _ offset toRead =>
      if bad offset then ⟨true, []⟩
      else
        ⟨false, List.replicate
          (goodRun bad sectorSize (min toRead chunk / sectorSize.toNat) offset
            * sectorSize.toNat) 255⟩
    writeErr := fun _ => none }

/-- A device on which seeks and writes succeed and the sector that starts at
`badSector` is unreadable.  A read whose range `[offset, offset + toRead)` holds a
byte of that sector fails as a whole, with zero bytes; any other read delivers at
most `chunk` bytes, each of them 255. -/
def overlapDevice (badSector sectorSize : Int) (chunk : Nat) : Device :=
  { seekFails := fun _ _ => false
    read := fun _ offset toRead =>
      if offset < badSector + sectorSize ∧ badSector < offset + (toRead : Int) then ⟨true, []⟩
      else ⟨false, List.replicate (min toRead chunk) 255⟩
    writeErr := fun _ => none }

end Win

/-! ## Lemmas on the library functions -/

set_option maxRecDepth 100000

theorem wrap64_of_inInt64 {x : Int} (h : inInt64 x) : wrap64 x = x := by
  unfold inInt64 at h
  unfold wrap64
  rw [Int.emod_eq_of_lt (by omega) (by omega)]
  omega

theorem toUpperRune_digit (table : Char → Char) {c : Char} (h : isDigit c) :
    toUpperRune table c = c := by
  unfold isDigit at h
  unfold toUpperRune asciiUpper
  rw [if_pos (by omega), if_neg (by omega)]

theorem toUpper_digits (table : Char → Char) {ds : List Char}
    (h : ∀ c ∈ ds, isDigit c) : toUpper table ds = ds := by
  unfold toUpper
  induction ds with
  | nil => rfl
  | cons c cs ih =>
    rw [List.map_cons, toUpperRune_digit table (h c (List.mem_cons_self c cs)),
      ih (fun d hd => h d (List.mem_cons_of_mem c hd))]

theorem hasSuffix_concat (l : List Char) (c d : Char) :
    hasSuffix (l ++ [c]) [d] = decide (c = d) := by
  unfold hasSuffix
  have h1 : (l ++ [c]).length - [d].length = l.length := by simp
  rw [h1, List.drop_left]
  by_cases h : c = d <;> simp [h]

theorem trimSuffix_concat (l : List Char) (c : Char) :
    trimSuffix (l ++ [c]) [c] = l := by
  unfold trimSuffix
  rw [hasSuffix_concat]
  have h1 : (l ++ [c]).length - [c].length = l.length := by simp
  simp [h1]

theorem decimalFrom_ge (ds : List Char) (n : Nat) : n ≤ decimalFrom n ds := by
  induction ds generalizing n with
  | nil => exact Nat.le_refl n
  | cons c cs ih =>
    have h := ih (n * 10 + (c.toNat - 48))
    have e : decimalFrom n (c :: cs) = decimalFrom (n * 10 + (c.toNat - 48)) cs := rfl
    omega

theorem scanDigits_of_digits (ds : List Char) (n : Nat)
    (hd : ∀ c ∈ ds, isDigit c) (hlt : decimalFrom n ds < 2 ^ 64) :
    scanDigits ds n = .ok (decimalFrom n ds) := by
  induction ds generalizing n with
  | nil => rfl
  | cons c cs ih =>
    have hc : isDigit c := hd c (List.mem_cons_self c cs)
    have e : decimalFrom n (c :: cs) = decimalFrom (n * 10 + (c.toNat - 48)) cs := rfl
    have hge := decimalFrom_ge cs (n * 10 + (c.toNat - 48))
    rw [e] at hlt
    have hdv : digitVal c = some (c.toNat - 48) := by
      unfold digitVal; unfold isDigit at hc; rw [if_pos hc]
    unfold scanDigits
    rw [hdv]
    simp only
    rw [if_neg (by omega), e]
    exact ih _ (fun d hd2 => hd d (List.mem_cons_of_mem c hd2)) hlt


theorem digit_ne_minus {c : Char} (h : isDigit c) : c ≠ '-' := by
  intro e; subst e; revert h; decide

theorem digit_ne_plus {c : Char} (h : isDigit c) : c ≠ '+' := by
  intro e; subst e; revert h; decide

theorem atoi_signed (sign ds : List Char)
    (hsign : sign = [] ∨ sign = ['+'] ∨ sign = ['-'])
    (hne : ds ≠ []) (hd : ∀ c ∈ ds, isDigit c)
    (hr : inInt64 (signedValue sign ds)) :
    atoi (sign ++ ds) = .ok (signedValue sign ds) := by
  unfold inInt64 at hr
  rcases hsign with h | h | h
  · subst h
    cases ds with
    | nil => exact absurd rfl hne
    | cons c cs =>
      have hc : isDigit c := hd c (List.mem_cons_self c cs)
      have hv : signedValue [] (c :: cs) = (decimalFrom 0 (c :: cs) : Int) := by
        simp [signedValue]
      rw [hv] at hr ⊢
      have hs := scanDigits_of_digits (c :: cs) 0 hd (by omega)
      simp only [atoi, List.nil_append, digit_ne_minus hc, digit_ne_plus hc, or_self,
        if_false, hs]
      rw [if_neg (by simp), if_neg (by omega)]
  · subst h
    have hv : signedValue ['+'] ds = (decimalFrom 0 ds : Int) := by
      simp [signedValue]
    rw [hv] at hr ⊢
    have hs := scanDigits_of_digits ds 0 hd (by omega)
    have e : ['+'] ++ ds = '+' :: ds := rfl
    rw [e]
    simp only [atoi, or_true, if_true, if_neg hne]
    rw [hs]
    simp only []
    rw [if_neg (by decide), if_neg (by omega)]
  · subst h
    have hv : signedValue ['-'] ds = -(decimalFrom 0 ds : Int) := by
      simp [signedValue]
    rw [hv] at hr ⊢
    have hs := scanDigits_of_digits ds 0 hd (by omega)
    have e : ['-'] ++ ds = '-' :: ds := rfl
    rw [e]
    simp only [atoi, true_or, if_true, if_neg hne]
    rw [hs]
    simp only []
    rw [if_neg (by omega)]


theorem toUpper_sign (table : Char → Char) {sign : List Char}
    (hsign : sign = [] ∨ sign = ['+'] ∨ sign = ['-']) : toUpper table sign = sign := by
  rcases hsign with h | h | h <;> subst h <;> rfl

theorem toUpper_number (table : Char → Char) (sign ds suffix : List Char)
    (hsign : sign = [] ∨ sign = ['+'] ∨ sign = ['-']) (hd : ∀ c ∈ ds, isDigit c) :
    toUpper table (sign ++ ds ++ suffix) = sign ++ ds ++ toUpper table suffix := by
  have h1 : toUpper table (sign ++ ds ++ suffix)
      = toUpper table sign ++ toUpper table ds ++ toUpper table suffix := by
    simp [toUpper]
  rw [h1, toUpper_sign table hsign, toUpper_digits table hd]

theorem hasSuffix_digits (sign ds : List Char) (d : Char) (hne : ds ≠ [])
    (hd : ∀ c ∈ ds, isDigit c) (hnd : ¬ isDigit d) : hasSuffix (sign ++ ds) [d] = false := by
  rcases List.eq_nil_or_concat ds with h | ⟨l, c, h⟩
  · exact absurd h hne
  · subst h
    have hc : isDigit c := hd c (by simp)
    have e : sign ++ l.concat c = (sign ++ l) ++ [c] := by simp
    rw [e, hasSuffix_concat]
    have hcd : c ≠ d := fun h => hnd (h ▸ hc)
    simp [hcd]

theorem parseBlockSize_eq (table : Char → Char) (s : List Char) :
    parseBlockSize table (String.mk s) =
      (match atoi (if hasSuffix (toUpper table s) ['K'] then
            ((1024 : Int), trimSuffix (toUpper table s) ['K'])
          else if hasSuffix (toUpper table s) ['M'] then
            (1024 * 1024, trimSuffix (toUpper table s) ['M'])
          else if hasSuffix (toUpper table s) ['G'] then
            (1024 * 1024 * 1024, trimSuffix (toUpper table s) ['G'])
          else (1, toUpper table s)).2 with
      | .error e => .error e
      | .ok val => .ok (wrap64 (val *
          (if hasSuffix (toUpper table s) ['K'] then
            ((1024 : Int), trimSuffix (toUpper table s) ['K'])
          else if hasSuffix (toUpper table s) ['M'] then
            (1024 * 1024, trimSuffix (toUpper table s) ['M'])
          else if hasSuffix (toUpper table s) ['G'] then
            (1024 * 1024 * 1024, trimSuffix (toUpper table s) ['G'])
          else (1, toUpper table s)).1))) := rfl

/-- Claim C1, amended.  For every string made of an optional sign, at least one
decimal digit and at most one suffix K, M or G in either letter case, such that
the integer `n` it writes times the binary multiplier of the suffix fits a 64 bit
`int`, `parseBlockSize` returns `n` times that multiplier and no error. -/
theorem parseBlockSize_in_range (table : Char → Char) (sign ds suffix : List Char) (m : Int)
    (hsign : sign = [] ∨ sign = ['+'] ∨ sign = ['-'])
    (hne : ds ≠ []) (hd : ∀ c ∈ ds, isDigit c)
    (hm : suffixMultiplier suffix = some m)
    (hr : inInt64 (signedValue sign ds * m)) :
    parseBlockSize table (String.mk (sign ++ ds ++ suffix)) = .ok (signedValue sign ds * m) := by
  have hK : ¬ isDigit 'K' := by decide
  have hM : ¬ isDigit 'M' := by decide
  have hG : ¬ isDigit 'G' := by decide
  have hw := wrap64_of_inInt64 hr
  rw [parseBlockSize_eq, toUpper_number table sign ds suffix hsign hd]
  unfold suffixMultiplier at hm
  split_ifs at hm with h0 h1 h2 h3
  · subst h0
    have hm1 : m = 1 := by injection hm with h; exact h.symm
    subst hm1
    have ha := atoi_signed sign ds hsign hne hd (by simpa using hr)
    have e : sign ++ ds ++ toUpper table [] = sign ++ ds := by simp [toUpper]
    rw [e, hasSuffix_digits sign ds 'K' hne hd hK, hasSuffix_digits sign ds 'M' hne hd hM,
      hasSuffix_digits sign ds 'G' hne hd hG]
    simp only [Bool.false_eq_true, if_false]
    rw [ha]
    simp only []
    rw [hw]
  · have hm1 : m = 1024 := by injection hm with h; exact h.symm
    subst hm1
    have ha := atoi_signed sign ds hsign hne hd (by unfold inInt64 at hr ⊢; omega)
    have e : sign ++ ds ++ toUpper table suffix = (sign ++ ds) ++ ['K'] := by
      rcases h1 with h | h <;> subst h <;> rfl
    rw [e, hasSuffix_concat, trimSuffix_concat]
    simp only [decide_True, if_true]
    rw [ha]
    simp only []
    rw [hw]
  · have hm1 : m = 1024 * 1024 := by injection hm with h; exact h.symm
    subst hm1
    have ha := atoi_signed sign ds hsign hne hd (by unfold inInt64 at hr ⊢; omega)
    have e : sign ++ ds ++ toUpper table suffix = (sign ++ ds) ++ ['M'] := by
      rcases h2 with h | h <;> subst h <;> rfl
    rw [e, hasSuffix_concat, hasSuffix_concat, trimSuffix_concat]
    simp only [decide_True, if_true]
    rw [if_neg (by decide), ha]
    simp only []
    rw [hw]
  · have hm1 : m = 1024 * 1024 * 1024 := by injection hm with h; exact h.symm
    subst hm1
    have ha := atoi_signed sign ds hsign hne hd (by unfold inInt64 at hr ⊢; omega)
    have e : sign ++ ds ++ toUpper table suffix = (sign ++ ds) ++ ['G'] := by
      rcases h3 with h | h <;> subst h <;> rfl
    rw [e, hasSuffix_concat, hasSuffix_concat, hasSuffix_concat, trimSuffix_concat]
    simp only [decide_True, if_true]
    rw [if_neg (by decide), if_neg (by decide), ha]
    simp only []
    rw [hw]


/-- Witness of C1 (amended): the four block sizes of the specification,
"4M", "512K", "1G" and "100", each within the `int` range. -/
theorem parseBlockSize_in_range_witness :
    (inInt64 (4 * (1024 * 1024)) ∧
      parseBlockSize noCaseTable "4M" = .ok 4194304) ∧
    parseBlockSize noCaseTable "512K" = .ok 524288 ∧
    parseBlockSize noCaseTable "1G" = .ok 1073741824 ∧
    parseBlockSize noCaseTable "100" = .ok 100 :=
  ⟨⟨by decide,
    (parseBlockSize_in_range noCaseTable [] ['4'] ['M'] (1024 * 1024) (Or.inl rfl)
      (by decide) (by decide) (by decide) (by decide)).trans
      (congrArg Except.ok (by decide))⟩,
   parseBlockSize_in_range noCaseTable [] ['5', '1', '2'] ['K'] 1024 (Or.inl rfl)
      (by decide) (by decide) (by decide) (by decide),
   (parseBlockSize_in_range noCaseTable [] ['1'] ['G'] (1024 * 1024 * 1024) (Or.inl rfl)
      (by decide) (by decide) (by decide) (by decide)).trans
      (congrArg Except.ok (by decide)),
   parseBlockSize_in_range noCaseTable [] ['1', '0', '0'] [] 1 (Or.inl rfl)
      (by decide) (by decide) (by decide) (by decide)⟩

/-- Counterexample to C1 as stated.  The string "9223372036854775808" is a decimal
integer `n = 2^63` without suffix, and `parseBlockSize` returns the range error of
`strconv.Atoi` instead of `n`. -/
theorem parseBlockSize_range_error :
    suffixMultiplier [] = some 1 ∧
    parseBlockSize noCaseTable "9223372036854775808" = .error .rangeErr ∧
    parseBlockSize noCaseTable "9223372036854775808" ≠ .ok (9223372036854775808 * 1) := by
  refine ⟨by decide, by rfl, ?_⟩
  intro h
  have e : parseBlockSize noCaseTable "9223372036854775808" = .error .rangeErr := by rfl
  rw [e] at h
  cases h

/-- Claim C2, at the failing input "-17179869183G".  The integer of the string is the
negative number -17179869183; `parseBlockSize` returns no error and the wrapped
product 1073741824, so the check `err != nil || blockSize <= 0` of `main` lets
the string through with a block size of 1 GiB. -/
theorem mainBlockSize_accepts_negative :
    atoi "-17179869183".toList = .ok (-17179869183) ∧
    parseBlockSize noCaseTable "-17179869183G" = .ok 1073741824 ∧
    mainBlockSize noCaseTable "-17179869183G" = some 1073741824 :=
  ⟨by rfl, by rfl, by rfl⟩


/-! ## Sequential variant: lemmas -/

namespace Linux

theorem wrap64_add_wrap64 (a b : Int) : wrap64 (wrap64 a + b) = wrap64 (a + b) := by
  unfold wrap64
  omega

theorem wrap64_inInt64 (a : Int) : inInt64 (wrap64 a) := by
  unfold wrap64 inInt64
  omega

theorem writeErr_none_of_not_fails {blockSize : Nat} {it : Iteration}
    (hlen : 0 < (it.read.data.take blockSize).length)
    (hw : writeFails blockSize it = false) : it.writeErr = none := by
  unfold writeFails at hw
  cases h : it.writeErr with
  | none => rfl
  | some k =>
    rw [h, decide_eq_true hlen] at hw
    cases hw

/-- One pass whose read has a `nil` error and whose write, if any, succeeds goes
on with the rest of the loop. -/
theorem cloneLoop_cons_quiet (blockSize : Nat) (it : Iteration) (rest : List Iteration)
    (s : CopyState) (herr : it.read.err = .nil) (hw : writeFails blockSize it = false) :
    cloneLoop blockSize (it :: rest) s = cloneLoop blockSize rest (passOne blockSize it s) := by
  by_cases hlen : 0 < (it.read.data.take blockSize).length
  · have hnone : it.writeErr = none := writeErr_none_of_not_fails hlen hw
    simp only [cloneLoop, passOne, if_pos hlen, hnone, herr, List.append_assoc]
  · simp only [cloneLoop, passOne, if_neg hlen, herr]

theorem cloneLoop_append_quiet (blockSize : Nat) (pre rest : List Iteration) (s : CopyState)
    (herr : ∀ x ∈ pre, x.read.err = .nil) (hw : ∀ x ∈ pre, writeFails blockSize x = false) :
    cloneLoop blockSize (pre ++ rest) s
      = cloneLoop blockSize rest (passThrough blockSize pre s) := by
  induction pre generalizing s with
  | nil => rfl
  | cons x xs ih =>
    rw [List.cons_append, cloneLoop_cons_quiet blockSize x (xs ++ rest) s
      (herr x (List.mem_cons_self x xs)) (hw x (List.mem_cons_self x xs))]
    exact ih _ (fun y hy => herr y (List.mem_cons_of_mem x hy))
      (fun y hy => hw y (List.mem_cons_of_mem x hy))

/-- A pass whose write fails ends the run with the write error, whatever follows. -/
theorem cloneLoop_cons_writeFails (blockSize : Nat) (it : Iteration) (rest : List Iteration)
    (s : CopyState) (hw : writeFails blockSize it = true) :
    (cloneLoop blockSize (it :: rest) s).1 = .writeError := by
  unfold writeFails at hw
  rw [Bool.and_eq_true, decide_eq_true_eq] at hw
  obtain ⟨hlen, hsome⟩ := hw
  cases h : it.writeErr with
  | none => rw [h] at hsome; cases hsome
  | some k => simp only [cloneLoop, if_pos hlen, h]

theorem cloneLoop_append_writeFails (blockSize : Nat) (pre rest : List Iteration)
    (s : CopyState) (herr : ∀ x ∈ pre, x.read.err = .nil)
    (hw : ∃ x ∈ pre, writeFails blockSize x = true) :
    (cloneLoop blockSize (pre ++ rest) s).1 = .writeError := by
  induction pre generalizing s with
  | nil =>
    obtain ⟨x, hx, _⟩ := hw
    cases hx
  | cons x xs ih =>
    by_cases hx : writeFails blockSize x = true
    · exact cloneLoop_cons_writeFails blockSize x (xs ++ rest) s hx
    · have hx2 : writeFails blockSize x = false := by simpa using hx
      rw [List.cons_append, cloneLoop_cons_quiet blockSize x (xs ++ rest) s
        (herr x (List.mem_cons_self x xs)) hx2]
      apply ih _ (fun y hy => herr y (List.mem_cons_of_mem x hy))
      obtain ⟨y, hy, hyw⟩ := hw
      rcases List.mem_cons.mp hy with h | h
      · subst h; exact absurd hyw hx
      · exact ⟨y, h, hyw⟩

/-- The last pass of a run: a read with an error and a write that succeeds, if
there is one. -/
theorem cloneLoop_cons_stop (blockSize : Nat) (it : Iteration) (rest : List Iteration)
    (s : CopyState) (herr : it.read.err ≠ .nil) (hw : writeFails blockSize it = false) :
    cloneLoop blockSize (it :: rest) s
      = (if it.read.err = .eof then .returnedNil else .readError, passOne blockSize it s) := by
  by_cases hlen : 0 < (it.read.data.take blockSize).length
  · have hnone : it.writeErr = none := writeErr_none_of_not_fails hlen hw
    cases he : it.read.err with
    | nil => exact absurd he herr
    | eof => simp only [cloneLoop, passOne, if_pos hlen, hnone, he, if_true, List.append_assoc]
    | other =>
      simp only [cloneLoop, passOne, if_pos hlen, hnone, he, List.append_assoc]
      rw [if_neg (by decide)]
  · cases he : it.read.err with
    | nil => exact absurd he herr
    | eof => simp only [cloneLoop, passOne, if_neg hlen, he, if_true]
    | other =>
      simp only [cloneLoop, passOne, if_neg hlen, he]
      rw [if_neg (by decide)]

/-- Passes whose reads report no error: either all their writes succeed and the
loop goes on after them, or the run has ended with the write error. -/
theorem cloneLoop_append_quiet_or_fail (blockSize : Nat) (pre rest : List Iteration)
    (s : CopyState) (herr : ∀ x ∈ pre, x.read.err = .nil) :
    (cloneLoop blockSize (pre ++ rest) s).1
      = if (∀ x ∈ pre, writeFails blockSize x = false) then
          (cloneLoop blockSize rest (passThrough blockSize pre s)).1
        else .writeError := by
  split_ifs with h
  · rw [cloneLoop_append_quiet blockSize pre rest s herr h]
  · apply cloneLoop_append_writeFails blockSize pre rest s herr
    by_contra hc
    apply h
    intro x hx
    by_contra hx2
    exact hc ⟨x, hx, by simpa using hx2⟩

theorem passThrough_append (blockSize : Nat) (xs ys : List Iteration) (s : CopyState) :
    passThrough blockSize (xs ++ ys) s
      = passThrough blockSize ys (passThrough blockSize xs s) := by
  induction xs generalizing s with
  | nil => rfl
  | cons x xs ih => exact ih _

theorem passThrough_dest (blockSize : Nat) (its : List Iteration) (s : CopyState) :
    (passThrough blockSize its s).dest
      = s.dest ++ (its.map (fun it => it.read.data.take blockSize)).flatten := by
  induction its generalizing s with
  | nil => simp [passThrough]
  | cons x xs ih =>
    rw [passThrough, ih]
    by_cases hlen : 0 < (x.read.data.take blockSize).length
    · simp only [passOne, if_pos hlen, List.map_cons, List.flatten_cons, List.append_assoc]
    · have hnil : x.read.data.take blockSize = [] := by
        apply List.eq_nil_of_length_eq_zero; omega
      simp only [passOne, if_neg hlen, List.map_cons, List.flatten_cons]
      rw [hnil, List.nil_append]

theorem passThrough_total (blockSize : Nat) (its : List Iteration) (s : CopyState)
    (h : inInt64 s.totalCopied) :
    (passThrough blockSize its s).totalCopied
      = wrap64 (s.totalCopied
          + ((its.map (fun it => it.read.data.take blockSize)).flatten.length : Int)) := by
  induction its generalizing s with
  | nil =>
    simp only [passThrough, List.map_nil, List.flatten_nil, List.length_nil, Nat.cast_zero,
      add_zero]
    exact (wrap64_of_inInt64 h).symm
  | cons x xs ih =>
    rw [passThrough]
    by_cases hlen : 0 < (x.read.data.take blockSize).length
    · rw [ih _ (by simp only [passOne, if_pos hlen]; exact wrap64_inInt64 _)]
      simp only [passOne, if_pos hlen, List.map_cons, List.flatten_cons, List.length_append,
        Nat.cast_add]
      rw [wrap64_add_wrap64, add_assoc]
    · have hnil : x.read.data.take blockSize = [] := by
        apply List.eq_nil_of_length_eq_zero; omega
      rw [ih _ (by simp only [passOne, if_neg hlen]; exact h)]
      simp only [passOne, if_neg hlen, List.map_cons, List.flatten_cons]
      rw [hnil, List.nil_append]

theorem writesOf_append (xs ys : List Event) :
    writesOf (xs ++ ys) = writesOf xs ++ writesOf ys := by
  induction xs with
  | nil => rfl
  | cons e es ih =>
    cases e with
    | read => simpa [writesOf] using ih
    | write d => simp [writesOf, ih]

theorem passThrough_writes (blockSize : Nat) (its : List Iteration) (s : CopyState) :
    writesOf (passThrough blockSize its s).calls
      = writesOf s.calls
        ++ (its.map (fun it => it.read.data.take blockSize)).filter
            (fun c => decide (0 < c.length)) := by
  induction its generalizing s with
  | nil => simp [passThrough]
  | cons x xs ih =>
    rw [passThrough, ih]
    by_cases hlen : 0 < (x.read.data.take blockSize).length
    · simp only [passOne, if_pos hlen, writesOf_append, writesOf, List.map_cons,
        List.filter_cons, decide_eq_true hlen, if_true, List.append_assoc, List.append_nil,
        List.nil_append, List.singleton_append]
    · simp only [passOne, if_neg hlen, writesOf_append, writesOf, List.map_cons,
        List.filter_cons, decide_eq_false hlen, List.append_nil]
      simp

/-- Claim C9, amended.  Let `it` be the first pass whose read reports an error, after
the passes `pre` whose reads report none.  The run returns nil exactly when that
error is end-of-stream and no write has failed up to and including the write of
the bytes delivered with that read; a failed write among them makes the run
return the write error; any other read error makes it return a non-nil error; and
when the run ends on the read error (end-of-stream or not), the bytes of all the
reads, those of the last read included, are in the destination.  A sequence
`pre` without any read error never makes the run return nil. -/
theorem cloneLoop_read_error_policy (blockSize : Nat) (pre post : List Iteration)
    (it : Iteration) (s : CopyState)
    (hpre : ∀ x ∈ pre, x.read.err = .nil) (hit : it.read.err ≠ .nil) :
    ((cloneLoop blockSize (pre ++ it :: post) s).1 = .returnedNil ↔
      it.read.err = .eof ∧ ∀ x ∈ pre ++ [it], writeFails blockSize x = false) ∧
    ((∃ x ∈ pre ++ [it], writeFails blockSize x = true) →
      (cloneLoop blockSize (pre ++ it :: post) s).1 = .writeError) ∧
    (it.read.err = .other →
      (cloneLoop blockSize (pre ++ it :: post) s).1 = .readError ∨
      (cloneLoop blockSize (pre ++ it :: post) s).1 = .writeError) ∧
    ((∀ x ∈ pre ++ [it], writeFails blockSize x = false) →
      (cloneLoop blockSize (pre ++ it :: post) s).2.dest
        = s.dest ++ ((pre ++ [it]).map (fun x => x.read.data.take blockSize)).flatten) ∧
    ((cloneLoop blockSize pre s).1 = .running ∨ (cloneLoop blockSize pre s).1 = .writeError) := by
  have hsplit : pre ++ it :: post = (pre ++ [it]) ++ post := by simp
  -- the run when no write fails
  have hok : (∀ x ∈ pre ++ [it], writeFails blockSize x = false) →
      cloneLoop blockSize (pre ++ it :: post) s
        = (if it.read.err = .eof then .returnedNil else .readError,
            passThrough blockSize (pre ++ [it]) s) := by
    intro hw
    rw [cloneLoop_append_quiet blockSize pre (it :: post) s hpre
      (fun x hx => hw x (List.mem_append_left _ hx)),
      cloneLoop_cons_stop blockSize it post _ hit (hw it (by simp)),
      passThrough_append]
    rfl
  -- the run when a write fails
  have hbad : (∃ x ∈ pre ++ [it], writeFails blockSize x = true) →
      (cloneLoop blockSize (pre ++ it :: post) s).1 = .writeError := by
    rintro ⟨x, hx, hxw⟩
    rcases List.mem_append.mp hx with h | h
    · exact cloneLoop_append_writeFails blockSize pre (it :: post) s hpre ⟨x, h, hxw⟩
    · have hxi : x = it := by simpa using h
      subst hxi
      rw [cloneLoop_append_quiet_or_fail blockSize pre (x :: post) s hpre]
      split_ifs with hq
      · exact cloneLoop_cons_writeFails blockSize x post _ hxw
      · rfl
  have hdec : (∀ x ∈ pre ++ [it], writeFails blockSize x = false) ∨
      (∃ x ∈ pre ++ [it], writeFails blockSize x = true) := by
    by_cases h : ∃ x ∈ pre ++ [it], writeFails blockSize x = true
    · exact Or.inr h
    · left
      intro x hx
      by_contra hc
      exact h ⟨x, hx, by simpa using hc⟩
  refine ⟨⟨?_, ?_⟩, hbad, ?_, ?_, ?_⟩
  · intro hnil
    rcases hdec with hw | hw
    · rw [hok hw] at hnil
      refine ⟨?_, hw⟩
      by_contra he
      rw [if_neg he] at hnil
      cases hnil
    · rw [hbad hw] at hnil
      cases hnil
  · rintro ⟨he, hw⟩
    rw [hok hw, if_pos he]
  · intro he
    rcases hdec with hw | hw
    · left
      rw [hok hw, if_neg (by rw [he]; decide)]
    · right
      exact hbad hw
  · intro hw
    rw [hok hw]
    exact passThrough_dest blockSize (pre ++ [it]) s
  · have h := cloneLoop_append_quiet_or_fail blockSize pre [] s hpre
    rw [List.append_nil] at h
    rw [h]
    split_ifs with hq
    · left; rfl
    · right; rfl

/-- Witness of C9 (amended): block size 4, a read of two bytes without error, then
a read that delivers one byte together with end-of-stream; both writes succeed.
The run returns nil and the three bytes are in the destination. -/
theorem cloneLoop_read_error_policy_witness :
    (∀ x ∈ [(⟨⟨[1, 2], .nil⟩, none⟩ : Iteration)], x.read.err = .nil) ∧
    (⟨⟨[3], .eof⟩, none⟩ : Iteration).read.err ≠ .nil ∧
    (cloneLoop 4 [⟨⟨[1, 2], .nil⟩, none⟩, ⟨⟨[3], .eof⟩, none⟩] CopyState.init).1
      = .returnedNil ∧
    (cloneLoop 4 [⟨⟨[1, 2], .nil⟩, none⟩, ⟨⟨[3], .eof⟩, none⟩] CopyState.init).2.dest
      = [1, 2, 3] :=
  ⟨by decide, by decide,
    ((cloneLoop_read_error_policy 4 [⟨⟨[1, 2], .nil⟩, none⟩] [] ⟨⟨[3], .eof⟩, none⟩
      CopyState.init (by decide) (by decide)).1).2 ⟨rfl, by decide⟩,
    (cloneLoop_read_error_policy 4 [⟨⟨[1, 2], .nil⟩, none⟩] [] ⟨⟨[3], .eof⟩, none⟩
      CopyState.init (by decide) (by decide)).2.2.2.1 (by decide)⟩

/-- Counterexample to C9 as stated.  Block size 4; the first read delivers the byte 7
together with end-of-stream, and the write of that byte fails after 0 bytes.  The
first read that reports an error reports end-of-stream and no write was made,
let alone failed, before it; still `cloneDisk` returns the write error, not nil,
and the byte delivered with the read is not in the destination. -/
theorem cloneDisk_eof_read_write_fails :
    cloneDisk ⟨false, false, [⟨⟨[7], .eof⟩, some 0⟩]⟩ 4
      = (.writeError, ⟨[], 0, [.read, .write [7]]⟩) ∧
    (cloneDisk ⟨false, false, [⟨⟨[7], .eof⟩, some 0⟩]⟩ 4).1 ≠ .returnedNil := by
  decide

/-! ### Round trip of the sequential variant -/

theorem faultFree_iterations (chunks : List (List Nat)) :
    (faultFree chunks).iterations
      = chunks.map (fun c => (⟨⟨c, .nil⟩, none⟩ : Iteration)) ++ [⟨⟨[], .eof⟩, none⟩] := by
  simp [faultFree, fileReads]

theorem take_chunks (blockSize : Nat) (chunks : List (List Nat))
    (hlen : ∀ c ∈ chunks, c.length ≤ blockSize) :
    chunks.map (fun c => c.take blockSize) = chunks := by
  induction chunks with
  | nil => rfl
  | cons c cs ih =>
    rw [List.map_cons, List.take_of_length_le (hlen c (List.mem_cons_self c cs)),
      ih (fun d hd => hlen d (List.mem_cons_of_mem c hd))]

theorem cloneLoop_faultFree (blockSize : Nat) (chunks : List (List Nat)) :
    cloneLoop blockSize (faultFree chunks).iterations CopyState.init
      = (.returnedNil,
          passThrough blockSize
            (chunks.map (fun c => (⟨⟨c, .nil⟩, none⟩ : Iteration)) ++ [⟨⟨[], .eof⟩, none⟩])
            CopyState.init) := by
  rw [faultFree_iterations]
  have hq : ∀ x ∈ chunks.map (fun c => (⟨⟨c, .nil⟩, none⟩ : Iteration)),
      x.read.err = .nil := by
    intro x hx
    obtain ⟨c, _, rfl⟩ := List.mem_map.mp hx
    rfl
  have hw : ∀ x ∈ chunks.map (fun c => (⟨⟨c, .nil⟩, none⟩ : Iteration)),
      writeFails blockSize x = false := by
    intro x hx
    obtain ⟨c, _, rfl⟩ := List.mem_map.mp hx
    simp [writeFails]
  rw [cloneLoop_append_quiet blockSize _ _ _ hq hw,
    cloneLoop_cons_stop blockSize _ [] _ (by decide) (by simp [writeFails]),
    passThrough_append]
  rfl

theorem hashLoop_fileReads (blockSize : Nat) (chunks : List (List Nat)) (hashed : List Nat)
    (hlen : ∀ c ∈ chunks, c.length ≤ blockSize) :
    hashLoop blockSize (fileReads chunks) hashed = .inr (hashed ++ chunks.flatten) := by
  induction chunks generalizing hashed with
  | nil => simp [fileReads, hashLoop]
  | cons c cs ih =>
    have hc : c.take blockSize = c := List.take_of_length_le (hlen c (List.mem_cons_self c cs))
    have e : fileReads (c :: cs) = ⟨c, .nil⟩ :: fileReads cs := rfl
    rw [e, hashLoop]
    simp only [hc]
    rw [ih _ (fun d hd => hlen d (List.mem_cons_of_mem c hd))]
    by_cases h0 : 0 < c.length
    · rw [if_pos h0, List.flatten_cons, List.append_assoc]
    · have hnil : c = [] := List.eq_nil_of_length_eq_zero (by omega)
      rw [if_neg h0, hnil, List.flatten_cons, List.nil_append]

theorem computeSHA256_fileReads (sha256 : List Nat → List Nat) (blockSize : Int)
    (chunks : List (List Nat)) (hbs : 0 < blockSize)
    (hlen : ∀ c ∈ chunks, (c.length : Int) ≤ blockSize) :
    computeSHA256 sha256 false (fileReads chunks) blockSize
      = .digest (hexEncode (sha256 chunks.flatten)) := by
  have hl : ∀ c ∈ chunks, c.length ≤ blockSize.toNat := by
    intro c hc
    have := hlen c hc
    omega
  unfold computeSHA256
  rw [if_neg (by decide), if_neg (by omega), hashLoop_fileReads _ _ _ hl]
  simp

/-- Claim C6.  The source is delivered by `os.File.Read` in the chunks `chunks`, each of
at most `blockSize > 0` bytes and then `0, io.EOF`; no read and no write fails.
Then `cloneDisk` returns nil, its `Write` calls carry exactly the non-empty chunks
it read, in order, the destination is their concatenation, which is the source,
`totalCopied` is the source length (as an `int64`), and `computeSHA256` over the
destination, however its reads split it (`dstChunks`), equals `computeSHA256` over
the source, however its reads split it (`srcChunks`): both are the digest of the
source bytes. -/
theorem cloneDisk_round_trip (sha256 : List Nat → List Nat) (blockSize : Int)
    (chunks srcChunks : List (List Nat)) (hbs : 0 < blockSize)
    (hlen : ∀ c ∈ chunks, (c.length : Int) ≤ blockSize)
    (hsrcLen : ∀ c ∈ srcChunks, (c.length : Int) ≤ blockSize)
    (hsrc : srcChunks.flatten = chunks.flatten) :
    (cloneDisk (faultFree chunks) blockSize).1 = .returnedNil ∧
    writesOf (cloneDisk (faultFree chunks) blockSize).2.calls
      = chunks.filter (fun c => decide (0 < c.length)) ∧
    (cloneDisk (faultFree chunks) blockSize).2.dest = chunks.flatten ∧
    (cloneDisk (faultFree chunks) blockSize).2.totalCopied
      = wrap64 (chunks.flatten.length : Int) ∧
    ∀ dstChunks : List (List Nat), (∀ c ∈ dstChunks, (c.length : Int) ≤ blockSize) →
      dstChunks.flatten = (cloneDisk (faultFree chunks) blockSize).2.dest →
      computeSHA256 sha256 false (fileReads dstChunks) blockSize
        = computeSHA256 sha256 false (fileReads srcChunks) blockSize ∧
      computeSHA256 sha256 false (fileReads dstChunks) blockSize
        = .digest (hexEncode (sha256 chunks.flatten)) := by
  have hl : ∀ c ∈ chunks, c.length ≤ blockSize.toNat := by
    intro c hc
    have := hlen c hc
    omega
  have hrun : cloneDisk (faultFree chunks) blockSize
      = (.returnedNil,
          passThrough blockSize.toNat
            (chunks.map (fun c => (⟨⟨c, .nil⟩, none⟩ : Iteration)) ++ [⟨⟨[], .eof⟩, none⟩])
            CopyState.init) := by
    unfold cloneDisk
    rw [if_neg (by simp [faultFree]), if_neg (by simp [faultFree]), if_neg (by omega)]
    exact cloneLoop_faultFree blockSize.toNat chunks
  have hdata : (chunks.map (fun c => (⟨⟨c, .nil⟩, none⟩ : Iteration))
        ++ [(⟨⟨[], .eof⟩, none⟩ : Iteration)]).map
          (fun it : Iteration => it.read.data.take blockSize.toNat)
      = chunks ++ [[]] := by
    rw [List.map_append, List.map_map]
    have : ((fun it : Iteration => it.read.data.take blockSize.toNat)
        ∘ fun c => (⟨⟨c, .nil⟩, none⟩ : Iteration)) = fun c => c.take blockSize.toNat := rfl
    rw [this, take_chunks _ _ hl]
    simp
  have hdest : (cloneDisk (faultFree chunks) blockSize).2.dest = chunks.flatten := by
    rw [hrun]
    show (passThrough _ _ _).dest = _
    rw [passThrough_dest, hdata]
    simp [CopyState.init]
  have hs := computeSHA256_fileReads sha256 blockSize srcChunks hbs hsrcLen
  rw [hsrc] at hs
  refine ⟨by rw [hrun], ?_, hdest, ?_, ?_⟩
  rotate_left 2
  · intro dstChunks hdstLen hdst
    rw [hdest] at hdst
    have hd := computeSHA256_fileReads sha256 blockSize dstChunks hbs hdstLen
    rw [hdst] at hd
    exact ⟨by rw [hd, hs], hd⟩
  · rw [hrun]
    show writesOf (passThrough _ _ _).calls = _
    rw [passThrough_writes, hdata]
    simp [CopyState.init, writesOf, List.filter_append]
  · rw [hrun]
    show (passThrough _ _ _).totalCopied = _
    rw [passThrough_total _ _ _ (by unfold inInt64; simp [CopyState.init]), hdata]
    simp [CopyState.init]

theorem tenMiB_chunk_length : ∀ c ∈ tenMiB, (c.length : Int) ≤ 1048576 := by
  intro c hc
  have h := List.eq_of_mem_replicate hc
  rw [h, List.length_replicate]
  decide

theorem tenMiBHalves_chunk_length : ∀ c ∈ tenMiBHalves, (c.length : Int) ≤ 1048576 := by
  intro c hc
  have h := List.eq_of_mem_replicate hc
  rw [h, List.length_replicate]
  decide

theorem tenMiB_flatten : tenMiB.flatten = List.replicate 10485760 0 := by
  unfold tenMiB
  rw [List.flatten_replicate_replicate]

theorem tenMiBHalves_flatten : tenMiBHalves.flatten = List.replicate 10485760 0 := by
  unfold tenMiBHalves
  rw [List.flatten_replicate_replicate]

/-- Witness of C6: a source of 10 MiB read with block size 1 MiB in ten full chunks.
The run returns nil after ten writes, `totalCopied` is 10485760, and the digest
of the destination, read back in chunks of 512 KiB, equals the digest of the
source. -/
theorem cloneDisk_round_trip_witness :
    (0 : Int) < 1048576 ∧
    (cloneDisk (faultFree tenMiB) 1048576).1 = .returnedNil ∧
    (writesOf (cloneDisk (faultFree tenMiB) 1048576).2.calls).length = 10 ∧
    (cloneDisk (faultFree tenMiB) 1048576).2.totalCopied = 10485760 ∧
    (cloneDisk (faultFree tenMiB) 1048576).2.dest = tenMiBHalves.flatten ∧
    computeSHA256 sampleDigest false (fileReads tenMiBHalves) 1048576
      = computeSHA256 sampleDigest false (fileReads tenMiB) 1048576 := by
  have h := cloneDisk_round_trip sampleDigest 1048576 tenMiB tenMiB (by decide)
    tenMiB_chunk_length tenMiB_chunk_length rfl
  obtain ⟨h1, h2, h3, h4, h5⟩ := h
  have hd : tenMiBHalves.flatten = (cloneDisk (faultFree tenMiB) 1048576).2.dest := by
    rw [h3, tenMiB_flatten, tenMiBHalves_flatten]
  refine ⟨by decide, h1, ?_, ?_, hd.symm, (h5 tenMiBHalves tenMiBHalves_chunk_length hd).1⟩
  · rw [h2]
    unfold tenMiB
    rw [List.filter_replicate_of_pos (by rw [List.length_replicate]; decide),
      List.length_replicate]
  · rw [h4, tenMiB_flatten, List.length_replicate]
    decide

end Linux

/-! ## Raw-device variant: lemmas -/

namespace Win

theorem alignDown_eq {S o : Int} (hS : 0 < S) (ho : 0 ≤ o) (hlt : o < 2 ^ 63) :
    alignDown S o = o / S * S := by
  unfold alignDown
  rw [Int.tmod_eq_emod ho (le_of_lt hS), Int.tdiv_eq_ediv ho (le_of_lt hS)]
  have hle : o / S * S ≤ o := Int.ediv_mul_le o (ne_of_gt hS)
  have hnn : 0 ≤ o / S * S := mul_nonneg (Int.ediv_nonneg ho (le_of_lt hS)) (le_of_lt hS)
  by_cases h : o % S = 0
  · rw [if_neg (by simpa using h)]
    exact (Int.ediv_mul_cancel (Int.dvd_of_emod_eq_zero h)).symm
  · rw [if_pos h]
    apply wrap64_of_inInt64
    unfold inInt64
    constructor <;> omega

theorem align_facts {S o : Int} (hS : 0 < S) (ho : 0 ≤ o) :
    0 ≤ o / S * S ∧ o / S * S ≤ o ∧ o < o / S * S + S ∧ S ∣ o / S * S := by
  refine ⟨mul_nonneg (Int.ediv_nonneg ho (le_of_lt hS)) (le_of_lt hS),
    Int.ediv_mul_le o (ne_of_gt hS), ?_, Dvd.intro_left _ rfl⟩
  have h := Int.lt_ediv_add_one_mul_self o hS
  rw [add_mul, one_mul] at h
  exact h

theorem align_of_dvd {S o : Int} (h : S ∣ o) : o / S * S = o :=
  Int.ediv_mul_cancel h

theorem readSize_eq {D a : Int} (ha : 0 ≤ a) (hlt : a < D) (hD : D < 2 ^ 63) :
    readSize D a = min (blockLen : Int) (D - a) := by
  unfold readSize
  rw [wrap64_of_inInt64 (by unfold inInt64; constructor <;> omega)]
  by_cases h : (blockLen : Int) > D - a
  · rw [if_pos h, min_eq_right (le_of_lt h)]
  · rw [if_neg h, min_eq_left (by omega)]

theorem readSize_facts {D a : Int} (hlt : a < D) :
    0 < min (blockLen : Int) (D - a) ∧ min (blockLen : Int) (D - a) ≤ D - a ∧
    min (blockLen : Int) (D - a) ≤ (blockLen : Int) := by
  have hb : (0 : Int) < (blockLen : Int) := by decide
  refine ⟨lt_min hb (by omega), min_le_right _ _, min_le_left _ _⟩

/-- One pass of `cloneDisk` entered with `0 <= offset < diskSize`, when no addition
leaves the `int64` range: the panics and the wrap-around drop out. -/
theorem clonePass_eq (dev : Device) (D S : Int) (s : CopyState)
    (hS : 0 < S) (hD : D < 2 ^ 63) (hov : s.offset / S * S + S < 2 ^ 63)
    (h0 : 0 ≤ s.offset) (hlt : s.offset < D) :
    clonePass dev D S s =
      if dev.seekFails s.pass (s.offset / S * S) then
        (some .seekError,
          { s with offset := s.offset / S * S
                   calls := s.calls ++ [.seek (s.offset / S * S)] })
      else if failsAt dev D s.pass (s.offset / S * S) then
        (none,
          { offset := s.offset / S * S + S
            dest := s.dest ++ written (List.replicate S.toNat 0) (dev.writeErr s.pass)
            pass := s.pass + 1
            calls := s.calls ++ [.seek (s.offset / S * S)] ++
              [.read (s.offset / S * S) (toReadAt D (s.offset / S * S)),
               .write (List.replicate S.toNat 0)]
            unreadable := s.unreadable ++ [s.offset / S * S] })
      else
        (none,
          { offset := s.offset / S * S + ((bytesAt dev D s.pass (s.offset / S * S)).length : Int)
            dest := s.dest ++ written (bytesAt dev D s.pass (s.offset / S * S))
              (dev.writeErr s.pass)
            pass := s.pass + 1
            calls := s.calls ++ [.seek (s.offset / S * S)] ++
              [.read (s.offset / S * S) (toReadAt D (s.offset / S * S)),
               .write (bytesAt dev D s.pass (s.offset / S * S))]
            unreadable := s.unreadable }) := by
  obtain ⟨ha0, hao, _, _⟩ := align_facts hS h0
  have haD : s.offset / S * S < D := lt_of_le_of_lt hao hlt
  obtain ⟨hn0, hnD, _⟩ := readSize_facts haD
  have hlen : (bytesAt dev D s.pass (s.offset / S * S)).length ≤ toReadAt D (s.offset / S * S) :=
    List.length_take_le _ _
  have hn : ((toReadAt D (s.offset / S * S) : Nat) : Int) = min (blockLen : Int) (D - s.offset / S * S) :=
    Int.toNat_of_nonneg (le_of_lt hn0)
  unfold clonePass
  rw [if_neg (ne_of_gt hS)]
  simp only [alignDown_eq hS h0 (by omega), readSize_eq ha0 haD hD]
  by_cases hseek : dev.seekFails s.pass (s.offset / S * S) = true
  · rw [if_pos hseek, if_pos hseek]
  · rw [if_neg hseek, if_neg hseek, if_neg (by omega)]
    by_cases hbad : failsAt dev D s.pass (s.offset / S * S)
    · have hbad2 : (dev.read s.pass (s.offset / S * S)
            (min (blockLen : Int) (D - s.offset / S * S)).toNat).failed = true ∧
          ((dev.read s.pass (s.offset / S * S)
            (min (blockLen : Int) (D - s.offset / S * S)).toNat).data.take
              (min (blockLen : Int) (D - s.offset / S * S)).toNat).length = 0 := hbad
      rw [if_pos hbad2, if_pos hbad, if_neg (by omega),
        wrap64_of_inInt64 (by unfold inInt64; constructor <;> omega)]
      rfl
    · have hbad2 : ¬ ((dev.read s.pass (s.offset / S * S)
            (min (blockLen : Int) (D - s.offset / S * S)).toNat).failed = true ∧
          ((dev.read s.pass (s.offset / S * S)
            (min (blockLen : Int) (D - s.offset / S * S)).toNat).data.take
              (min (blockLen : Int) (D - s.offset / S * S)).toNat).length = 0) := hbad
      have hw : wrap64 (s.offset / S * S + (((dev.read s.pass (s.offset / S * S)
            (min (blockLen : Int) (D - s.offset / S * S)).toNat).data.take
              (min (blockLen : Int) (D - s.offset / S * S)).toNat).length : Int))
          = s.offset / S * S + ((bytesAt dev D s.pass (s.offset / S * S)).length : Int) :=
        wrap64_of_inInt64 (by
          unfold inInt64
          have e : ((dev.read s.pass (s.offset / S * S)
            (min (blockLen : Int) (D - s.offset / S * S)).toNat).data.take
              (min (blockLen : Int) (D - s.offset / S * S)).toNat).length
              = (bytesAt dev D s.pass (s.offset / S * S)).length := rfl
          rw [e]
          constructor <;> omega)
      rw [if_neg hbad2, if_neg hbad, hw]
      rfl

/-- The same pass entered at a sector boundary: the alignment correction does
nothing. -/
theorem clonePass_aligned (dev : Device) (D S : Int) (s : CopyState)
    (hS : 0 < S) (hD : D < 2 ^ 63) (hov : s.offset + S < 2 ^ 63)
    (h0 : 0 ≤ s.offset) (hlt : s.offset < D) (hdv : S ∣ s.offset) :
    clonePass dev D S s =
      if dev.seekFails s.pass s.offset then
        (some .seekError, { s with calls := s.calls ++ [.seek s.offset] })
      else if failsAt dev D s.pass s.offset then
        (none,
          { offset := s.offset + S
            dest := s.dest ++ written (List.replicate S.toNat 0) (dev.writeErr s.pass)
            pass := s.pass + 1
            calls := s.calls ++ [.seek s.offset] ++
              [.read s.offset (toReadAt D s.offset), .write (List.replicate S.toNat 0)]
            unreadable := s.unreadable ++ [s.offset] })
      else
        (none,
          { offset := s.offset + ((bytesAt dev D s.pass s.offset).length : Int)
            dest := s.dest ++ written (bytesAt dev D s.pass s.offset) (dev.writeErr s.pass)
            pass := s.pass + 1
            calls := s.calls ++ [.seek s.offset] ++
              [.read s.offset (toReadAt D s.offset), .write (bytesAt dev D s.pass s.offset)]
            unreadable := s.unreadable }) := by
  have ha := align_of_dvd hdv
  have h := clonePass_eq dev D S s hS hD (by rw [ha]; exact hov) h0 hlt
  rw [ha] at h
  exact h

/-- A pass leaves the function only through a seek error or a panic. -/
theorem clonePass_outcome (dev : Device) (D S : Int) (s : CopyState) :
    (clonePass dev D S s).1 = none ∨ (clonePass dev D S s).1 = some .seekError ∨
    (clonePass dev D S s).1 = some .panicked := by
  unfold clonePass
  dsimp only
  split_ifs <;> simp

theorem cloneLoop_step (dev : Device) (D S : Int) (fuel : Nat) (s : CopyState)
    (hlt : s.offset < D) :
    cloneLoop dev D S (fuel + 1) s =
      if (clonePass dev D S s).1 = none then cloneLoop dev D S fuel (clonePass dev D S s).2
      else (((clonePass dev D S s).1).getD .running, (clonePass dev D S s).2) := by
  rw [cloneLoop, if_pos hlt]
  rcases h : clonePass dev D S s with ⟨o, s1⟩
  cases o with
  | none => simp
  | some o => simp

theorem cloneLoop_done (dev : Device) (D S : Int) (fuel : Nat) (s : CopyState)
    (hge : ¬ s.offset < D) : cloneLoop dev D S fuel s = (.returnedNil, s) := by
  cases fuel with
  | zero => rw [cloneLoop, if_neg hge]
  | succ n => rw [cloneLoop, if_neg hge]

/-- Invariant rule for the loop of `cloneDisk`: a property that holds at loop entry and
is kept by every pass entered with `offset < diskSize` holds for the state in
which the run is after any number of passes, however it ends. -/
theorem cloneLoop_invariant (dev : Device) (D S : Int) (Inv : CopyState → Prop)
    (hstep : ∀ s, Inv s → s.offset < D → Inv (clonePass dev D S s).2) :
    ∀ (fuel : Nat) (s : CopyState), Inv s → Inv (cloneLoop dev D S fuel s).2 := by
  intro fuel
  induction fuel with
  | zero => intro s hs; exact hs
  | succ n ih =>
    intro s hs
    by_cases hlt : s.offset < D
    · rw [cloneLoop_step dev D S n s hlt]
      split_ifs with h
      · exact ih _ (hstep s hs hlt)
      · exact hstep s hs hlt
    · rw [cloneLoop_done dev D S _ s hlt]
      exact hs

/-- The loop ends normally only with `offset >= diskSize`, and is still running only
with `offset < diskSize`. -/
theorem cloneLoop_exit (dev : Device) (D S : Int) :
    ∀ (fuel : Nat) (s : CopyState),
      ((cloneLoop dev D S fuel s).1 = .returnedNil → D ≤ (cloneLoop dev D S fuel s).2.offset) ∧
      ((cloneLoop dev D S fuel s).1 = .running → (cloneLoop dev D S fuel s).2.offset < D) := by
  intro fuel
  induction fuel with
  | zero =>
    intro s
    rw [cloneLoop]
    by_cases hlt : s.offset < D
    · rw [if_pos hlt]
      exact ⟨fun h => (by cases h), fun _ => hlt⟩
    · rw [if_neg hlt]
      exact ⟨fun _ => (by simpa using hlt), fun h => (by cases h)⟩
  | succ n ih =>
    intro s
    by_cases hlt : s.offset < D
    · rw [cloneLoop_step dev D S n s hlt]
      split_ifs with h
      · exact ih _
      · rcases clonePass_outcome dev D S s with h1 | h1 | h1
        · exact absurd h1 h
        · rw [h1]; exact ⟨fun h => (by cases h), fun h => (by cases h)⟩
        · rw [h1]; exact ⟨fun h => (by cases h), fun h => (by cases h)⟩
    · rw [cloneLoop_done dev D S _ s hlt]
      exact ⟨fun _ => (by simpa using hlt), fun h => (by cases h)⟩

/-- One more pass at the end: the run of `k + 1` passes is the run of `k` passes,
followed by one pass if the loop is still running. -/
theorem cloneLoop_succ (dev : Device) (D S : Int) :
    ∀ (k : Nat) (s : CopyState),
      cloneLoop dev D S (k + 1) s =
        if (cloneLoop dev D S k s).1 = .running then
          cloneLoop dev D S 1 (cloneLoop dev D S k s).2
        else cloneLoop dev D S k s := by
  intro k
  induction k with
  | zero =>
    intro s
    by_cases hlt : s.offset < D
    · have h0 : cloneLoop dev D S 0 s = (.running, s) := by rw [cloneLoop, if_pos hlt]
      rw [h0, if_pos rfl]
    · rw [cloneLoop_done dev D S 1 s hlt, cloneLoop_done dev D S 0 s hlt]
      simp
  | succ n ih =>
    intro s
    by_cases hlt : s.offset < D
    · rw [cloneLoop_step dev D S (n + 1) s hlt, cloneLoop_step dev D S n s hlt]
      by_cases h : (clonePass dev D S s).1 = none
      · rw [if_pos h, if_pos h]
        exact ih _
      · rw [if_neg h, if_neg h]
        rcases clonePass_outcome dev D S s with h1 | h1 | h1
        · exact absurd h1 h
        · rw [h1]; simp
        · rw [h1]; simp
    · rw [cloneLoop_done dev D S _ s hlt, cloneLoop_done dev D S _ s hlt]
      simp

theorem clonePass_pass (dev : Device) (D S : Int) (s : CopyState)
    (h : (clonePass dev D S s).1 = none) : (clonePass dev D S s).2.pass = s.pass + 1 := by
  unfold clonePass at h ⊢
  dsimp only at h ⊢
  split_ifs at h ⊢ <;> simp at h ⊢

/-- A loop still running after `k` passes has completed `k` passes. -/
theorem cloneLoop_running_pass (dev : Device) (D S : Int) :
    ∀ (k : Nat) (s : CopyState), (cloneLoop dev D S k s).1 = .running →
      (cloneLoop dev D S k s).2.pass = s.pass + k := by
  intro k
  induction k with
  | zero =>
    intro s _
    rfl
  | succ n ih =>
    intro s hrun
    by_cases hlt : s.offset < D
    · rw [cloneLoop_step dev D S n s hlt] at hrun ⊢
      by_cases h : (clonePass dev D S s).1 = none
      · rw [if_pos h] at hrun ⊢
        rw [ih _ hrun, clonePass_pass dev D S s h]
        omega
      · rw [if_neg h] at hrun
        rcases clonePass_outcome dev D S s with h1 | h1 | h1
        · exact absurd h1 h
        · rw [h1] at hrun; cases hrun
        · rw [h1] at hrun; cases hrun
    · rw [cloneLoop_done dev D S _ s hlt] at hrun
      cases hrun

theorem cloneDisk_eq (dev : Device) (openFails createFails : Bool) (D S : Int) (fuel : Nat) :
    cloneDisk dev openFails createFails D S fuel =
      if openFails = true then (.openError, CopyState.init)
      else if createFails = true then (.createError, CopyState.init)
      else cloneLoop dev D S fuel CopyState.init := rfl

theorem toReadAt_cast {D a : Int} (hlt : a < D) :
    ((toReadAt D a : Nat) : Int) = min (blockLen : Int) (D - a) :=
  Int.toNat_of_nonneg (le_of_lt (readSize_facts hlt).1)

theorem bytesAt_length_le (dev : Device) (D : Int) (pass : Nat) (a : Int) :
    (bytesAt dev D pass a).length ≤ toReadAt D a :=
  List.length_take_le _ _

theorem covered_mono {calls more : List Event} {b : Int} (h : covered calls b) :
    covered (calls ++ more) b := by
  obtain ⟨off, n, hm, h1, h2⟩ := h
  exact ⟨off, n, List.mem_append_left _ hm, h1, h2⟩

/-- The invariant behind C7: the offset is not negative, every seek so far went to
a non-negative multiple of the sector size, and the reads so far cover every
byte of the disk below the offset. -/
theorem clonePass_cover (dev : Device) (D S : Int) (hS : 0 < S)
    (hSb : S ≤ (blockLen : Int)) (hD : D + S < 2 ^ 63) (s : CopyState)
    (hinv : 0 ≤ s.offset ∧ (∀ x, Event.seek x ∈ s.calls → 0 ≤ x ∧ S ∣ x) ∧
      (∀ b, 0 ≤ b → b < s.offset → b < D → covered s.calls b))
    (hlt : s.offset < D) :
    0 ≤ (clonePass dev D S s).2.offset ∧
    (∀ x, Event.seek x ∈ (clonePass dev D S s).2.calls → 0 ≤ x ∧ S ∣ x) ∧
    (∀ b, 0 ≤ b → b < (clonePass dev D S s).2.offset → b < D →
      covered (clonePass dev D S s).2.calls b) := by
  obtain ⟨h0, hseek, hcov⟩ := hinv
  obtain ⟨ha0, hao, hoa, hdv⟩ := align_facts hS h0
  have haD : s.offset / S * S < D := lt_of_le_of_lt hao hlt
  have hn := toReadAt_cast haD
  obtain ⟨hn0, hnD, hnB⟩ := readSize_facts haD
  have hlen := bytesAt_length_le dev D s.pass (s.offset / S * S)
  rw [clonePass_eq dev D S s hS (by omega) (by omega) h0 hlt]
  have hread : ∀ (w : List Nat) (b : Int), s.offset / S * S ≤ b →
      b < s.offset / S * S + min (blockLen : Int) (D - s.offset / S * S) →
      covered (s.calls ++ [.seek (s.offset / S * S)] ++
        [.read (s.offset / S * S) (toReadAt D (s.offset / S * S)), .write w]) b := by
    intro w b hb1 hb2
    exact ⟨s.offset / S * S, toReadAt D (s.offset / S * S), by simp, hb1, by rw [hn]; exact hb2⟩
  have hseeks : ∀ (w : List Nat) (x : Int),
      Event.seek x ∈ (s.calls ++ [.seek (s.offset / S * S)] ++
        [.read (s.offset / S * S) (toReadAt D (s.offset / S * S)), .write w]) →
      0 ≤ x ∧ S ∣ x := by
    intro w x hx
    simp only [List.mem_append, List.mem_cons, List.mem_singleton, Event.seek.injEq,
      List.not_mem_nil, or_false, reduceCtorEq] at hx
    rcases hx with hx | hx
    · exact hseek x hx
    · rw [hx]; exact ⟨ha0, hdv⟩
  split_ifs with hsk hbad
  · refine ⟨ha0, ?_, ?_⟩
    · intro x hx
      simp only [List.mem_append, List.mem_singleton, Event.seek.injEq] at hx
      rcases hx with hx | hx
      · exact hseek x hx
      · rw [hx]; exact ⟨ha0, hdv⟩
    · intro b hb0 hb hbD
      exact covered_mono (hcov b hb0 (by simp only at hb; omega) hbD)
  · refine ⟨by simp only; omega, hseeks _, ?_⟩
    intro b hb0 hb hbD
    simp only at hb
    by_cases hold : b < s.offset
    · have h := @covered_mono _ ([.seek (s.offset / S * S)] ++
        [.read (s.offset / S * S) (toReadAt D (s.offset / S * S)),
          .write (List.replicate S.toNat 0)]) _ (hcov b hb0 hold hbD)
      rw [← List.append_assoc] at h
      exact h
    · apply hread _ b (by omega)
      rcases min_choice (blockLen : Int) (D - s.offset / S * S) with hm | hm <;> rw [hm] <;> omega
  · refine ⟨by simp only; omega, hseeks _, ?_⟩
    intro b hb0 hb hbD
    simp only at hb
    by_cases hold : b < s.offset
    · have h := @covered_mono _ ([.seek (s.offset / S * S)] ++
        [.read (s.offset / S * S) (toReadAt D (s.offset / S * S)),
          .write (bytesAt dev D s.pass (s.offset / S * S))]) _ (hcov b hb0 hold hbD)
      rw [← List.append_assoc] at h
      exact h
    · apply hread _ b (by omega)
      omega

/-- Claim C7, amended.  For a sector size between 1 and the buffer length 1048576, and
a disk size with `diskSize + sectorSize < 2^63`: in every run of the raw-device
`cloneDisk`, whatever the outcomes of its system calls, every offset passed to
`setFilePointerEx` is a non-negative multiple of `sectorSize`, and when the run
finishes the ranges `[offset, offset + toRead)` of the reads issued cover every byte
of `[0, diskSize)`. -/
theorem cloneDisk_aligned_cover (dev : Device) (openFails createFails : Bool) (D S : Int)
    (fuel : Nat) (hS : 0 < S) (hSb : S ≤ 1048576) (hD : D + S < 2 ^ 63) :
    (∀ x, Event.seek x ∈ (cloneDisk dev openFails createFails D S fuel).2.calls →
      0 ≤ x ∧ S ∣ x) ∧
    ((cloneDisk dev openFails createFails D S fuel).1 = .returnedNil →
      ∀ b, 0 ≤ b → b < D →
        covered (cloneDisk dev openFails createFails D S fuel).2.calls b) := by
  have hinit : 0 ≤ CopyState.init.offset ∧
      (∀ x, Event.seek x ∈ CopyState.init.calls → 0 ≤ x ∧ S ∣ x) ∧
      (∀ b, 0 ≤ b → b < CopyState.init.offset → b < D → covered CopyState.init.calls b) := by
    refine ⟨le_refl _, ?_, ?_⟩
    · intro x hx
      simp [CopyState.init] at hx
    · intro b hb0 hb
      exact absurd hb (by simp only [CopyState.init]; omega)
  have hloop := cloneLoop_invariant dev D S
    (fun s => 0 ≤ s.offset ∧ (∀ x, Event.seek x ∈ s.calls → 0 ≤ x ∧ S ∣ x) ∧
      (∀ b, 0 ≤ b → b < s.offset → b < D → covered s.calls b))
    (fun s hs hlt => clonePass_cover dev D S hS (by simpa [blockLen] using hSb) hD s hs hlt)
    fuel CopyState.init hinit
  have hexit := (cloneLoop_exit dev D S fuel CopyState.init).1
  rw [cloneDisk_eq]
  split_ifs with ho hc
  · exact ⟨fun x hx => (by simp [CopyState.init] at hx), fun h => (by cases h)⟩
  · exact ⟨fun x hx => (by simp [CopyState.init] at hx), fun h => (by cases h)⟩
  · refine ⟨hloop.2.1, ?_⟩
    intro hret b hb0 hbD
    exact hloop.2.2 b hb0 (lt_of_lt_of_le hbD (hexit hret)) hbD

theorem covered_iff_any (calls : List Event) (b : Int) :
    covered calls b ↔ calls.any (readCovers b) = true := by
  rw [List.any_eq_true]
  constructor
  · rintro ⟨off, n, hm, h1, h2⟩
    exact ⟨.read off n, hm, by simp [readCovers, h1, h2]⟩
  · rintro ⟨e, hm, he⟩
    cases e with
    | seek x => simp [readCovers] at he
    | write w => simp [readCovers] at he
    | read off n =>
      simp only [readCovers, decide_eq_true_eq] at he
      exact ⟨off, n, hm, he.1, he.2⟩

/-- Witness of C7 (amended): sector size 512, disk size 1024, every read fails. -/
theorem cloneDisk_aligned_cover_witness :
    ((0 : Int) < 512 ∧ (512 : Int) ≤ 1048576 ∧ (1024 : Int) + 512 < 2 ^ 63) ∧
    (∀ x, Event.seek x ∈ (cloneDisk deadDevice false false 1024 512 2).2.calls →
      0 ≤ x ∧ (512 : Int) ∣ x) ∧
    ((cloneDisk deadDevice false false 1024 512 2).1 = .returnedNil →
      ∀ b, 0 ≤ b → b < 1024 →
        covered (cloneDisk deadDevice false false 1024 512 2).2.calls b) :=
  ⟨by decide,
    cloneDisk_aligned_cover deadDevice false false 1024 512 2 (by decide) (by decide)
      (by decide)⟩

/-- Counterexample to C7 as stated.  Sector size 2 MiB, disk size 4 MiB, every read
fails with zero bytes.  The run finishes after two passes whose reads have the
ranges `[0, 1048576)` and `[2097152, 3145728)`: each pass reads at most the
1 MiB of the buffer and then advances by a whole sector, so the byte 1048576
of the disk is in no read range. -/
theorem cloneDisk_gap_large_sector :
    (0 : Int) < 2097152 ∧ (0 : Int) ≤ 4194304 ∧
    (cloneDisk deadDevice false false 4194304 2097152 2).1 = .returnedNil ∧
    ¬ covered (cloneDisk deadDevice false false 4194304 2097152 2).2.calls 1048576 := by
  refine ⟨by decide, by decide, by decide, ?_⟩
  rw [covered_iff_any]
  decide

/-! ### Progress and termination of the raw-device loops -/

theorem cloneLoop_one (dev : Device) (D S : Int) (s : CopyState) (hlt : s.offset < D) :
    (cloneLoop dev D S 1 s).2 = (clonePass dev D S s).2 ∧
    ((clonePass dev D S s).1 = some .seekError →
      (cloneLoop dev D S 1 s).1 = .seekError) := by
  rw [cloneLoop_step dev D S 0 s hlt]
  by_cases h : (clonePass dev D S s).1 = none
  · rw [if_pos h]
    refine ⟨rfl, ?_⟩
    intro h2
    rw [h] at h2
    cases h2
  · rw [if_neg h]
    refine ⟨rfl, ?_⟩
    intro h2
    rw [h2]
    rfl

/-- Under `goodReads`, a pass entered at a sector boundary below `diskSize` either
stops on a seek error or moves the offset strictly forward, to a sector
boundary at least one sector further or to `diskSize`. -/
theorem clonePass_progress (dev : Device) (D S : Int) (hS : 0 < S) (hD : D + S < 2 ^ 63)
    (hg : goodReads dev D S) (s : CopyState)
    (hinv : 0 ≤ s.offset ∧ (s.offset < D → S ∣ s.offset ∧ (s.pass : Int) * S ≤ s.offset))
    (hlt : s.offset < D) :
    (0 ≤ (clonePass dev D S s).2.offset ∧
      ((clonePass dev D S s).2.offset < D → S ∣ (clonePass dev D S s).2.offset ∧
        ((clonePass dev D S s).2.pass : Int) * S ≤ (clonePass dev D S s).2.offset)) ∧
    ((clonePass dev D S s).1 = none ∨ (clonePass dev D S s).1 = some .seekError) ∧
    ((clonePass dev D S s).1 = none → s.offset < (clonePass dev D S s).2.offset) := by
  obtain ⟨h0, hal⟩ := hinv
  obtain ⟨hdv, hpass⟩ := hal hlt
  have hgood := hg s.pass s.offset h0 hlt hdv
  have hlen := bytesAt_length_le dev D s.pass s.offset
  have hn := toReadAt_cast hlt
  obtain ⟨hn0, hnD, hnB⟩ := readSize_facts hlt
  rw [clonePass_aligned dev D S s hS (by omega) (by omega) h0 hlt hdv]
  split_ifs with hsk hbad
  · exact ⟨⟨h0, fun _ => ⟨hdv, hpass⟩⟩, Or.inr rfl, fun h => (by cases h)⟩
  · refine ⟨⟨by simp only; omega, fun _ => ⟨Dvd.dvd.add hdv (dvd_refl S), ?_⟩⟩, Or.inl rfl,
      fun _ => (by simp only; omega)⟩
    simp only [Nat.cast_add, Nat.cast_one]
    rw [add_mul, one_mul]
    omega
  · rcases hgood with hf | ⟨hpos, hmul | hend⟩
    · exact absurd hf hbad
    · have hSle : S ≤ ((bytesAt dev D s.pass s.offset).length : Int) :=
        Int.le_of_dvd (by omega) hmul
      refine ⟨⟨by simp only; omega, fun _ => ⟨Dvd.dvd.add hdv hmul, ?_⟩⟩, Or.inl rfl,
        fun _ => (by simp only; omega)⟩
      simp only [Nat.cast_add, Nat.cast_one]
      rw [add_mul, one_mul]
      omega
    · refine ⟨⟨by simp only; omega, fun h => ?_⟩, Or.inl rfl, fun _ => (by simp only; omega)⟩
      simp only at h
      omega

/-- Under `goodReads`, the number of sectors below the offset is at least the number
of passes made, as long as the loop is running. -/
theorem cloneLoop_progress (dev : Device) (D S : Int) (hS : 0 < S) (hD : D + S < 2 ^ 63)
    (hg : goodReads dev D S) (fuel : Nat) :
    0 ≤ (cloneLoop dev D S fuel CopyState.init).2.offset ∧
    ((cloneLoop dev D S fuel CopyState.init).2.offset < D →
      S ∣ (cloneLoop dev D S fuel CopyState.init).2.offset ∧
      ((cloneLoop dev D S fuel CopyState.init).2.pass : Int) * S
        ≤ (cloneLoop dev D S fuel CopyState.init).2.offset) :=
  cloneLoop_invariant dev D S
    (fun s => 0 ≤ s.offset ∧ (s.offset < D → S ∣ s.offset ∧ (s.pass : Int) * S ≤ s.offset))
    (fun s hs hlt => (clonePass_progress dev D S hS hD hg s hs hlt).1)
    fuel CopyState.init
    ⟨le_refl _, fun _ => ⟨by simp [CopyState.init], by simp [CopyState.init]⟩⟩

theorem ceil_mul_ge {D S : Int} (hS : 0 < S) (hD0 : 0 ≤ D) :
    D ≤ (((D + S - 1) / S).toNat : Int) * S := by
  have h1 : 0 ≤ (D + S - 1) / S := Int.ediv_nonneg (by omega) (le_of_lt hS)
  rw [Int.toNat_of_nonneg h1]
  have h2 := Int.lt_ediv_add_one_mul_self (D + S - 1) hS
  rw [add_mul, one_mul] at h2
  omega

/-- Under `goodReads` the loop of `cloneDisk` is not running any more after
`ceil(diskSize / sectorSize)` passes. -/
theorem cloneLoop_terminates (dev : Device) (D S : Int) (hS : 0 < S) (hD0 : 0 ≤ D)
    (hD : D + S < 2 ^ 63) (hg : goodReads dev D S) :
    (cloneLoop dev D S ((D + S - 1) / S).toNat CopyState.init).1 ≠ .running := by
  intro hrun
  have hlt := (cloneLoop_exit dev D S _ CopyState.init).2 hrun
  have hp := cloneLoop_running_pass dev D S _ CopyState.init hrun
  have hinv := (cloneLoop_progress dev D S hS hD hg ((D + S - 1) / S).toNat).2 hlt
  rw [hp] at hinv
  have hc := ceil_mul_ge hS hD0
  have h0 : CopyState.init.pass = 0 := rfl
  rw [h0, Nat.zero_add] at hinv
  omega

/-- Under `goodReads` every pass of `cloneDisk` that is completed moves the offset
strictly forward. -/
theorem cloneLoop_strict (dev : Device) (D S : Int) (hS : 0 < S)
    (hD : D + S < 2 ^ 63) (hg : goodReads dev D S) (k : Nat)
    (hrun : (cloneLoop dev D S k CopyState.init).1 = .running) :
    (cloneLoop dev D S (k + 1) CopyState.init).1 = .seekError ∨
    (cloneLoop dev D S k CopyState.init).2.offset
      < (cloneLoop dev D S (k + 1) CopyState.init).2.offset := by
  have hlt := (cloneLoop_exit dev D S k CopyState.init).2 hrun
  have hinv := cloneLoop_progress dev D S hS hD hg k
  have hstep := clonePass_progress dev D S hS hD hg _ hinv hlt
  have hone := cloneLoop_one dev D S _ hlt
  rw [cloneLoop_succ, if_pos hrun]
  rcases hstep.2.1 with h | h
  · right
    rw [hone.1]
    exact hstep.2.2 h
  · left
    exact hone.2 h

/-- The loop of `computeSHA256` moves its offset exactly as the loop of `cloneDisk`. -/
theorem hashPass_clonePass (dev : Device) (D S : Int) (hs : HashState) (s : CopyState)
    (ho : hs.offset = s.offset) (hp : hs.pass = s.pass) :
    (hashPass dev D S hs).1 = (clonePass dev D S s).1 ∧
    (hashPass dev D S hs).2.offset = (clonePass dev D S s).2.offset ∧
    (hashPass dev D S hs).2.pass = (clonePass dev D S s).2.pass := by
  unfold hashPass clonePass
  rw [ho, hp]
  dsimp only
  split_ifs <;> simp [ho, hp]

theorem hashLoop_cloneLoop (dev : Device) (D S : Int) :
    ∀ (fuel : Nat) (hs : HashState) (s : CopyState), hs.offset = s.offset → hs.pass = s.pass →
      (hashLoop dev D S fuel hs).1 = (cloneLoop dev D S fuel s).1 ∧
      (hashLoop dev D S fuel hs).2.offset = (cloneLoop dev D S fuel s).2.offset := by
  intro fuel
  induction fuel with
  | zero =>
    intro hs s ho hp
    simp only [hashLoop, cloneLoop, ho, and_true]
  | succ n ih =>
    intro hs s ho hp
    obtain ⟨h1, h2, h3⟩ := hashPass_clonePass dev D S hs s ho hp
    rw [hashLoop, cloneLoop, ho]
    by_cases hlt : s.offset < D
    · rw [if_pos hlt, if_pos hlt]
      rcases hh : hashPass dev D S hs with ⟨o1, s1⟩
      rcases hc : clonePass dev D S s with ⟨o2, s2⟩
      rw [hh, hc] at h1 h2 h3
      simp only at h1 h2 h3
      subst h1
      cases o1 with
      | none => exact ih s1 s2 h2 h3
      | some o => exact ⟨rfl, h2⟩
    · rw [if_neg hlt, if_neg hlt]
      exact ⟨rfl, ho⟩

theorem computeSHA256_cloneDisk (dev : Device) (D S : Int) (fuel : Nat) :
    (computeSHA256 dev false D S fuel).1 = (cloneDisk dev false false D S fuel).1 ∧
    (computeSHA256 dev false D S fuel).2.offset = (cloneDisk dev false false D S fuel).2.offset :=
  hashLoop_cloneLoop dev D S fuel ⟨0, [], 0⟩ CopyState.init rfl rfl

/-- Claim C10, amended.  For `diskSize >= 0` and `sectorSize > 0` with
`diskSize + sectorSize < 2^63`, and a device on which every read issued at a sector
boundary either fails with zero bytes or delivers a byte count that is a positive
multiple of `sectorSize` or reaches `diskSize`: every completed pass of the loop of
`cloneDisk` strictly increases the offset (a pass is not completed only when its
seek fails, which ends the run), and the loop has ended after at most
`ceil(diskSize / sectorSize)` passes; the same holds for the loop of the raw-device
`computeSHA256`. -/
theorem raw_loops_terminate (dev : Device) (D S : Int) (hS : 0 < S) (hD0 : 0 ≤ D)
    (hD : D + S < 2 ^ 63) (hg : goodReads dev D S) :
    (∀ k, (cloneDisk dev false false D S k).1 = .running →
      (cloneDisk dev false false D S (k + 1)).1 = .seekError ∨
      (cloneDisk dev false false D S k).2.offset
        < (cloneDisk dev false false D S (k + 1)).2.offset) ∧
    (cloneDisk dev false false D S ((D + S - 1) / S).toNat).1 ≠ .running ∧
    (∀ k, (computeSHA256 dev false D S k).1 = .running →
      (computeSHA256 dev false D S (k + 1)).1 = .seekError ∨
      (computeSHA256 dev false D S k).2.offset
        < (computeSHA256 dev false D S (k + 1)).2.offset) ∧
    (computeSHA256 dev false D S ((D + S - 1) / S).toNat).1 ≠ .running := by
  have hc : ∀ k, cloneDisk dev false false D S k = cloneLoop dev D S k CopyState.init :=
    fun k => rfl
  refine ⟨?_, ?_, ?_, ?_⟩
  · intro k hrun
    rw [hc] at hrun
    rw [hc, hc]
    exact cloneLoop_strict dev D S hS hD hg k hrun
  · rw [hc]
    exact cloneLoop_terminates dev D S hS hD0 hD hg
  · intro k hrun
    rw [(computeSHA256_cloneDisk dev D S k).1, hc] at hrun
    rw [(computeSHA256_cloneDisk dev D S k).2, (computeSHA256_cloneDisk dev D S (k + 1)).1,
      (computeSHA256_cloneDisk dev D S (k + 1)).2, hc, hc]
    exact cloneLoop_strict dev D S hS hD hg k hrun
  · rw [(computeSHA256_cloneDisk dev D S _).1, hc]
    exact cloneLoop_terminates dev D S hS hD0 hD hg

theorem goodReads_deadDevice (D S : Int) : goodReads deadDevice D S := by
  intro pass offset _ _ _
  left
  exact ⟨rfl, by simp [bytesAt, deadDevice]⟩

/-- Witness of C10 (amended): disk size 2048, sector size 512, every read fails with
zero bytes; the loops have ended after 4 passes. -/
theorem raw_loops_terminate_witness :
    ((0 : Int) < 512 ∧ (0 : Int) ≤ 2048 ∧ (2048 : Int) + 512 < 2 ^ 63) ∧
    (cloneDisk deadDevice false false 2048 512 ((2048 + 512 - 1) / 512 : Int).toNat).1
      ≠ .running ∧
    (computeSHA256 deadDevice false 2048 512 ((2048 + 512 - 1) / 512 : Int).toNat).1
      ≠ .running :=
  ⟨by decide,
    (raw_loops_terminate deadDevice 2048 512 (by decide) (by decide) (by decide)
      (goodReads_deadDevice 2048 512)).2.1,
    (raw_loops_terminate deadDevice 2048 512 (by decide) (by decide) (by decide)
      (goodReads_deadDevice 2048 512)).2.2.2⟩

theorem clonePass_dead (D S : Int) (s : CopyState) (hS : 0 < S) (hD : D < 2 ^ 63)
    (h0 : 0 ≤ s.offset) (hlt : s.offset < D) (hdv : S ∣ s.offset) :
    (clonePass deadDevice D S s).1 = none ∧
    (clonePass deadDevice D S s).2.offset = wrap64 (s.offset + S) := by
  have ha : alignDown S s.offset = s.offset := by
    rw [alignDown_eq hS h0 (by omega), align_of_dvd hdv]
  have hr := readSize_eq h0 hlt hD
  have hf := (readSize_facts hlt).1
  unfold clonePass
  rw [ha]
  dsimp only
  rw [hr, if_neg (ne_of_gt hS), if_neg (not_lt.mpr (le_of_lt hf)),
    if_neg (not_lt.mpr (le_of_lt hS))]
  simp [deadDevice]

theorem cloneLoop_dead (D S : Int) (hS : 0 < S) (hD : D < 2 ^ 63) :
    ∀ (k : Nat) (s : CopyState), 0 ≤ s.offset → S ∣ s.offset → s.offset + (k : Int) * S < D →
      (cloneLoop deadDevice D S k s).1 = .running ∧
      (cloneLoop deadDevice D S k s).2.offset = s.offset + (k : Int) * S ∧
      S ∣ (cloneLoop deadDevice D S k s).2.offset := by
  intro k
  induction k with
  | zero =>
    intro s h0 hdv hle
    have hlt : s.offset < D := by simpa using hle
    rw [cloneLoop, if_pos hlt]
    exact ⟨rfl, by simp, hdv⟩
  | succ n ih =>
    intro s h0 hdv hle
    have hnS : 0 ≤ (n : Int) * S := mul_nonneg (Int.ofNat_nonneg n) (le_of_lt hS)
    have hlt : s.offset < D := by push_cast at hle; nlinarith
    obtain ⟨h1, h2⟩ := clonePass_dead D S s hS hD h0 hlt hdv
    have hw : wrap64 (s.offset + S) = s.offset + S :=
      wrap64_of_inInt64 (by unfold inInt64; push_cast at hle; constructor <;> nlinarith)
    rw [hw] at h2
    rw [cloneLoop_step deadDevice D S n s hlt, if_pos h1]
    have := ih (clonePass deadDevice D S s).2 (by rw [h2]; omega)
      (by rw [h2]; exact dvd_add hdv (dvd_refl S)) (by rw [h2]; push_cast at hle; linarith)
    rw [h2] at this
    refine ⟨this.1, ?_, this.2.2⟩
    rw [this.2.1]; push_cast; ring

theorem cloneLoop_dead_last (D S : Int) (hS : 0 < S) (hD : D < 2 ^ 63) (k : Nat)
    (hk : (k : Int) * S < D) :
    (cloneLoop deadDevice D S k CopyState.init).1 = .running ∧
    (cloneLoop deadDevice D S k CopyState.init).2.offset = (k : Int) * S ∧
    (cloneLoop deadDevice D S (k + 1) CopyState.init).2.offset = wrap64 ((k : Int) * S + S) ∧
    (wrap64 ((k : Int) * S + S) < D →
      (cloneLoop deadDevice D S (k + 1) CopyState.init).1 = .running) := by
  have hi : CopyState.init.offset = 0 := rfl
  obtain ⟨h1, h2, h3⟩ := cloneLoop_dead D S hS hD k CopyState.init (by rw [hi])
    (by rw [hi]; exact dvd_zero S) (by rw [hi, zero_add]; exact hk)
  rw [hi, zero_add] at h2
  have hlt : (cloneLoop deadDevice D S k CopyState.init).2.offset < D := by rw [h2]; exact hk
  obtain ⟨p1, p2⟩ := clonePass_dead D S (cloneLoop deadDevice D S k CopyState.init).2 hS hD
    (by rw [h2]; exact mul_nonneg (Int.ofNat_nonneg k) (le_of_lt hS)) hlt h3
  rw [h2] at p2
  have hlast : cloneLoop deadDevice D S (k + 1) CopyState.init
      = cloneLoop deadDevice D S 0 (clonePass deadDevice D S
          (cloneLoop deadDevice D S k CopyState.init).2).2 := by
    rw [cloneLoop_succ deadDevice D S k CopyState.init, if_pos h1,
      cloneLoop_step deadDevice _ _ 0 _ hlt, if_pos p1]
  rw [hlast]
  refine ⟨h1, h2, ?_, ?_⟩
  · rw [cloneLoop]; exact p2
  · intro hw
    rw [cloneLoop, if_pos (by rw [p2]; exact hw)]

/-- Counterexample to C10 as stated.  Disk size `2^63 - 1`, sector size `2^31`, every
read fails with zero bytes: `ceil(diskSize / sectorSize)` is `2^32`; after
`2^32 - 1` passes the offset is `2^63 - 2^31`, and pass number `2^32` wraps it round to
`-2^63`, which is smaller, and the loop has not ended. -/
theorem cloneDisk_offset_wraps :
    (((2 ^ 63 - 1 : Int) + 2147483648 - 1) / 2147483648).toNat = 4294967296 ∧
    (cloneDisk deadDevice false false (2 ^ 63 - 1) 2147483648 4294967295).1 = .running ∧
    (cloneDisk deadDevice false false (2 ^ 63 - 1) 2147483648 4294967295).2.offset
      = 9223372034707292160 ∧
    (cloneDisk deadDevice false false (2 ^ 63 - 1) 2147483648 4294967296).1 = .running ∧
    (cloneDisk deadDevice false false (2 ^ 63 - 1) 2147483648 4294967296).2.offset
      = -9223372036854775808 := by
  have hc : ∀ k, cloneDisk deadDevice false false (2 ^ 63 - 1) 2147483648 k
      = cloneLoop deadDevice (2 ^ 63 - 1) 2147483648 k CopyState.init := fun k => rfl
  have e1 : ((4294967295 : Nat) : Int) * 2147483648 = 9223372034707292160 := by norm_num
  have e2 : wrap64 (9223372034707292160 + 2147483648) = -9223372036854775808 := by decide
  have h := cloneLoop_dead_last (2 ^ 63 - 1) 2147483648 (by norm_num) (by norm_num)
    4294967295 (by rw [e1]; norm_num)
  have e3 : (4294967295 + 1 : Nat) = 4294967296 := rfl
  rw [e1, e2, e3] at h
  rw [hc, hc]
  exact ⟨by decide, h.1, h.2.1, h.2.2.2 (by norm_num), h.2.2.1⟩

/-- One pass entered at a sector boundary below `diskSize`, when `sectorSize` divides
`diskSize` and the read delivers whole sectors: the offset does not decrease and stays
a sector boundary not above `diskSize`. -/
theorem clonePass_cursor (dev : Device) (D S : Int) (hS : 0 < S) (hD : D < 2 ^ 63)
    (hdiv : S ∣ D) (hw : wholeSectors dev D S) (s : CopyState)
    (hinv : 0 ≤ s.offset ∧ s.offset ≤ D ∧ S ∣ s.offset) (hlt : s.offset < D) :
    (0 ≤ (clonePass dev D S s).2.offset ∧ (clonePass dev D S s).2.offset ≤ D ∧
      S ∣ (clonePass dev D S s).2.offset) ∧
    s.offset ≤ (clonePass dev D S s).2.offset := by
  obtain ⟨h0, -, hdv⟩ := hinv
  have hmul := hw s.pass s.offset h0 hlt hdv
  have hlen := bytesAt_length_le dev D s.pass s.offset
  have hn := toReadAt_cast hlt
  obtain ⟨hn0, hnD, hnB⟩ := readSize_facts hlt
  have hroom : s.offset + S ≤ D := by
    have h1 : S ∣ D - s.offset := Dvd.dvd.sub hdiv hdv
    have h2 := Int.le_of_dvd (by omega) h1
    omega
  rw [clonePass_aligned dev D S s hS hD (by omega) h0 hlt hdv]
  split_ifs with hsk hbad
  · exact ⟨⟨h0, le_of_lt hlt, hdv⟩, le_refl _⟩
  · exact ⟨⟨by simp only; omega, hroom, Dvd.dvd.add hdv (dvd_refl S)⟩, by simp only; omega⟩
  · exact ⟨⟨by simp only; omega, by simp only; omega, Dvd.dvd.add hdv hmul⟩,
      by simp only; omega⟩

theorem cloneLoop_cursor (dev : Device) (D S : Int) (hS : 0 < S) (hD0 : 0 ≤ D)
    (hD : D < 2 ^ 63) (hdiv : S ∣ D) (hw : wholeSectors dev D S) (fuel : Nat) :
    0 ≤ (cloneLoop dev D S fuel CopyState.init).2.offset ∧
    (cloneLoop dev D S fuel CopyState.init).2.offset ≤ D ∧
    S ∣ (cloneLoop dev D S fuel CopyState.init).2.offset :=
  cloneLoop_invariant dev D S (fun s => 0 ≤ s.offset ∧ s.offset ≤ D ∧ S ∣ s.offset)
    (fun s hs hlt => (clonePass_cursor dev D S hS hD hdiv hw s hs hlt).1)
    fuel CopyState.init ⟨le_refl _, hD0, dvd_zero S⟩

/-- Claim C8, amended.  For `0 <= diskSize < 2^63`, `sectorSize > 0` dividing
`diskSize`, and a device whose reads at sector boundaries deliver whole sectors:
after any number of passes of the loop of `cloneDisk` the offset is between 0 and
`diskSize`, the alignment correction leaves it as it is, the next pass does not
decrease it, and a run that has left the loop with `nil` has `offset == diskSize`. -/
theorem cloneDisk_cursor (dev : Device) (D S : Int) (hS : 0 < S) (hD0 : 0 ≤ D)
    (hD : D < 2 ^ 63) (hdiv : S ∣ D) (hw : wholeSectors dev D S) (k : Nat) :
    0 ≤ (cloneDisk dev false false D S k).2.offset ∧
    (cloneDisk dev false false D S k).2.offset ≤ D ∧
    alignDown S (cloneDisk dev false false D S k).2.offset
      = (cloneDisk dev false false D S k).2.offset ∧
    (cloneDisk dev false false D S k).2.offset
      ≤ (cloneDisk dev false false D S (k + 1)).2.offset ∧
    ((cloneDisk dev false false D S k).1 = .returnedNil →
      (cloneDisk dev false false D S k).2.offset = D) := by
  have hc : ∀ k, cloneDisk dev false false D S k = cloneLoop dev D S k CopyState.init :=
    fun k => rfl
  rw [hc, hc]
  obtain ⟨h0, hle, hdv⟩ := cloneLoop_cursor dev D S hS hD0 hD hdiv hw k
  refine ⟨h0, hle, ?_, ?_, ?_⟩
  · rw [alignDown_eq hS h0 (by omega), align_of_dvd hdv]
  · rw [cloneLoop_succ dev D S k CopyState.init]
    by_cases hrun : (cloneLoop dev D S k CopyState.init).1 = .running
    · rw [if_pos hrun]
      have hlt := ((cloneLoop_exit dev D S k CopyState.init).2 hrun)
      rw [(cloneLoop_one dev D S _ hlt).1]
      exact (clonePass_cursor dev D S hS hD hdiv hw _ ⟨h0, hle, hdv⟩ hlt).2
    · rw [if_neg hrun]
  · intro hnil
    have := (cloneLoop_exit dev D S k CopyState.init).1 hnil
    omega

theorem wholeSectors_deadDevice (D S : Int) : wholeSectors deadDevice D S := by
  intro pass offset _ _ _
  simp [bytesAt, deadDevice]

/-- Witness of C8 (amended): disk size 2048, sector size 512, every read fails; after
4 passes the run has returned `nil` with offset 2048. -/
theorem cloneDisk_cursor_witness :
    ((0 : Int) < 512 ∧ (0 : Int) ≤ 2048 ∧ (2048 : Int) < 2 ^ 63 ∧ (512 : Int) ∣ 2048) ∧
    (cloneDisk deadDevice false false 2048 512 4).1 = .returnedNil ∧
    (cloneDisk deadDevice false false 2048 512 4).2.offset = 2048 :=
  ⟨by decide, by decide,
    (cloneDisk_cursor deadDevice 2048 512 (by decide) (by decide) (by decide) (by decide)
      (wholeSectors_deadDevice 2048 512) 4).2.2.2.2 (by decide)⟩

/-- Counterexample to C8 as stated.  With disk size 1000 and sector size 512, both
reads failing, the loop exits with offset 1024, above `diskSize`.  With disk size
1024 and sector size 512, a first read of 100 bytes puts the offset at 100, and the
alignment correction of the second pass takes it back to 0: the second pass seeks
to 0 and reads from there. -/
theorem cloneDisk_cursor_leaves_range :
    (cloneDisk deadDevice false false 1000 512 2).1 = .returnedNil ∧
    (cloneDisk deadDevice false false 1000 512 2).2.offset = 1024 ∧
    (cloneDisk (scriptDevice [⟨false, List.replicate 100 255⟩, ⟨false, List.replicate 1024 255⟩] [])
      false false 1024 512 1).2.offset = 100 ∧
    alignDown 512 100 = 0 ∧
    (cloneDisk (scriptDevice [⟨false, List.replicate 100 255⟩, ⟨false, List.replicate 1024 255⟩] [])
      false false 1024 512 2).2.calls
      = [.seek 0, .read 0 1024, .write (List.replicate 100 255),
         .seek 0, .read 0 1024, .write (List.replicate 1024 255)] := by
  decide

/-- When no write fails, a pass entered at a sector boundary with as many bytes in
the destination as the offset says leaves as many bytes as the new offset says. -/
theorem clonePass_dest_length (dev : Device) (D S : Int) (hS : 0 < S) (hD : D < 2 ^ 63)
    (hwr : ∀ i, dev.writeErr i = none) (s : CopyState) (hov : s.offset + S < 2 ^ 63)
    (h0 : 0 ≤ s.offset) (hlt : s.offset < D) (hdv : S ∣ s.offset)
    (hlen : (s.dest.length : Int) = s.offset) :
    ((clonePass dev D S s).2.dest.length : Int) = (clonePass dev D S s).2.offset := by
  rw [clonePass_aligned dev D S s hS hD hov h0 hlt hdv]
  split_ifs with hsk hbad
  · exact hlen
  · simp only [hwr, written, List.length_append, List.length_replicate, Nat.cast_add]
    rw [hlen, Int.toNat_of_nonneg (le_of_lt hS)]
  · simp only [hwr, written, List.length_append, Nat.cast_add]
    rw [hlen]

theorem cloneLoop_length (dev : Device) (D S : Int) (hS : 0 < S) (hD0 : 0 ≤ D)
    (hD : D < 2 ^ 63) (hdiv : S ∣ D) (hw : wholeSectors dev D S)
    (hwr : ∀ i, dev.writeErr i = none) (fuel : Nat) :
    (0 ≤ (cloneLoop dev D S fuel CopyState.init).2.offset ∧
      (cloneLoop dev D S fuel CopyState.init).2.offset ≤ D ∧
      S ∣ (cloneLoop dev D S fuel CopyState.init).2.offset) ∧
    ((cloneLoop dev D S fuel CopyState.init).2.dest.length : Int)
      = (cloneLoop dev D S fuel CopyState.init).2.offset :=
  cloneLoop_invariant dev D S
    (fun s => (0 ≤ s.offset ∧ s.offset ≤ D ∧ S ∣ s.offset) ∧ (s.dest.length : Int) = s.offset)
    (fun s hs hlt =>
      ⟨(clonePass_cursor dev D S hS hD hdiv hw s hs.1 hlt).1,
        clonePass_dest_length dev D S hS hD hwr s
          (by
            have h1 : S ∣ D - s.offset := Dvd.dvd.sub hdiv hs.1.2.2
            have h2 := Int.le_of_dvd (by omega) h1
            omega)
          hs.1.1 hlt hs.1.2.2 hs.2⟩)
    fuel CopyState.init ⟨⟨le_refl _, hD0, dvd_zero S⟩, rfl⟩

/-- Claim C3, amended.  For `0 <= diskSize < 2^63`, `sectorSize > 0` dividing
`diskSize`, a device whose reads at sector boundaries deliver whole sectors, and
writes that all succeed: after any number of passes of the loop of `cloneDisk` the
number of bytes in the destination equals the offset and is at most `diskSize`, and
when the loop has finished with `nil` it equals `diskSize`. -/
theorem cloneDisk_length (dev : Device) (D S : Int) (hS : 0 < S) (hD0 : 0 ≤ D)
    (hD : D < 2 ^ 63) (hdiv : S ∣ D) (hw : wholeSectors dev D S)
    (hwr : ∀ i, dev.writeErr i = none) (fuel : Nat) :
    ((cloneDisk dev false false D S fuel).2.dest.length : Int)
      = (cloneDisk dev false false D S fuel).2.offset ∧
    ((cloneDisk dev false false D S fuel).2.dest.length : Int) ≤ D ∧
    ((cloneDisk dev false false D S fuel).1 = .returnedNil →
      ((cloneDisk dev false false D S fuel).2.dest.length : Int) = D) := by
  have hc : cloneDisk dev false false D S fuel = cloneLoop dev D S fuel CopyState.init := rfl
  rw [hc]
  obtain ⟨⟨h0, hle, hdv⟩, hlen⟩ := cloneLoop_length dev D S hS hD0 hD hdiv hw hwr fuel
  refine ⟨hlen, by omega, ?_⟩
  intro hnil
  have := (cloneLoop_exit dev D S fuel CopyState.init).1 hnil
  omega

theorem wholeSectors_sampleDevice (bad : List Int) (D : Int) (hdiv : (512 : Int) ∣ D) :
    wholeSectors (sampleDevice bad 512) D 512 := by
  intro pass offset h0 hlt hdv
  have hn := toReadAt_cast hlt
  have h1 : (512 : Int) ∣ D - offset := Dvd.dvd.sub hdiv hdv
  have h2 := Int.le_of_dvd (by omega) h1
  have hb : (blockLen : Int) = 1048576 := by decide
  have h3 : 512 ≤ toReadAt D offset := by
    have : (512 : Int) ≤ ((toReadAt D offset : Nat) : Int) := by
      rw [hn, hb]; exact le_min (by norm_num) h2
    exact_mod_cast this
  unfold bytesAt sampleDevice
  simp only
  split_ifs with hbad
  · simp
  · rw [List.length_take, List.length_replicate]
    have : min (toReadAt D offset) (min (toReadAt D offset) 512) = 512 := by omega
    rw [this]
    exact dvd_refl _

/-- Witness of C3 (amended): disk size 2048, sector size 512, reads of one sector
each, the sector at offset 512 unreadable; the loop finishes after 4 passes and the
destination holds 2048 bytes. -/
theorem cloneDisk_length_witness :
    ((0 : Int) < 512 ∧ (0 : Int) ≤ 2048 ∧ (2048 : Int) < 2 ^ 63 ∧ (512 : Int) ∣ 2048) ∧
    (cloneDisk (sampleDevice [512] 512) false false 2048 512 4).1 = .returnedNil ∧
    ((cloneDisk (sampleDevice [512] 512) false false 2048 512 4).2.dest.length : Int) = 2048 :=
  ⟨by decide, by decide,
    (cloneDisk_length (sampleDevice [512] 512) 2048 512 (by decide) (by decide) (by decide)
      (by decide) (wholeSectors_sampleDevice [512] 2048 (by decide)) (fun _ => rfl) 4).2.2
      (by decide)⟩

/-- Counterexample to C3 as stated.  Disk size 1000, sector size 512, both reads
fail with zero bytes: the loop finishes after two passes and 1024 bytes have been
written, 24 more than `diskSize`. -/
theorem cloneDisk_pads_last_sector :
    (cloneDisk deadDevice false false 1000 512 2).1 = .returnedNil ∧
    (cloneDisk deadDevice false false 1000 512 2).2.dest.length = 1024 ∧
    (cloneDisk deadDevice false false 1000 512 2).2.dest = List.replicate 1024 0 := by
  decide

theorem sectorsBelow_succ {S o : Int} (hS : 0 < S) (h0 : 0 ≤ o) (hdv : S ∣ o) :
    sectorsBelow S (o + S) = sectorsBelow S o ++ [o] := by
  have h1 : (o + S) / S = o / S + 1 := by
    have := Int.add_mul_ediv_right o 1 (ne_of_gt hS)
    rwa [one_mul] at this
  have h2 : 0 ≤ o / S := Int.ediv_nonneg h0 (le_of_lt hS)
  have h3 : (o / S + 1).toNat = (o / S).toNat + 1 := by omega
  unfold sectorsBelow
  rw [h1, h3, List.range_succ, List.map_append, List.map_singleton,
    Int.toNat_of_nonneg h2, align_of_dvd hdv]

theorem sectorsBelow_filter_add {S o : Int} (hS : 0 < S) (h0 : 0 ≤ o) (hdv : S ∣ o)
    (bad : Int → Bool) :
    ∀ m : Nat, (∀ i : Nat, i < m → bad (o + (i : Int) * S) = false) →
      (sectorsBelow S (o + (m : Int) * S)).filter bad = (sectorsBelow S o).filter bad := by
  intro m
  induction m with
  | zero => intro _; simp
  | succ n ih =>
    intro hgood
    have hn : 0 ≤ (n : Int) * S := mul_nonneg (Int.ofNat_nonneg n) (le_of_lt hS)
    have e : o + ((n + 1 : Nat) : Int) * S = (o + (n : Int) * S) + S := by push_cast; ring
    rw [e, sectorsBelow_succ hS (by omega) (Dvd.dvd.add hdv (Dvd.intro_left _ rfl)),
      List.filter_append, ih (fun i hi => hgood i (Nat.lt_succ_of_lt hi))]
    simp [hgood n (Nat.lt_succ_self n)]

theorem mem_sectorsBelow {S o x : Int} (hS : 0 < S) (hdv : S ∣ o) (hx0 : 0 ≤ x)
    (hxd : S ∣ x) (hlt : x < o) : x ∈ sectorsBelow S o := by
  unfold sectorsBelow
  rw [List.mem_map]
  have h1 : 0 ≤ x / S := Int.ediv_nonneg hx0 (le_of_lt hS)
  have h2 : x / S < o / S :=
    Int.ediv_lt_of_lt_mul hS (by rw [align_of_dvd hdv]; exact hlt)
  have h3 : (x / S).toNat < (o / S).toNat := by omega
  refine ⟨(x / S).toNat, List.mem_range.mpr h3, ?_⟩
  rw [Int.toNat_of_nonneg h1, align_of_dvd hxd]

/-- In a run of `cloneDisk` with `diskSize + sectorSize < 2^63` the offset never
becomes negative, whatever the device does. -/
theorem clonePass_nonneg (dev : Device) (D S : Int) (hS : 0 < S) (hD : D + S < 2 ^ 63)
    (s : CopyState) (h0 : 0 ≤ s.offset) (hlt : s.offset < D) :
    0 ≤ (clonePass dev D S s).2.offset := by
  obtain ⟨ha0, hao, -, -⟩ := align_facts hS h0
  rw [clonePass_eq dev D S s hS (by omega) (by omega) h0 hlt]
  split_ifs
  · exact ha0
  · simp only; omega
  · simp only; omega

theorem cloneLoop_nonneg (dev : Device) (D S : Int) (hS : 0 < S) (hD : D + S < 2 ^ 63)
    (fuel : Nat) : 0 ≤ (cloneLoop dev D S fuel CopyState.init).2.offset :=
  cloneLoop_invariant dev D S (fun s => 0 ≤ s.offset)
    (fun s hs hlt => clonePass_nonneg dev D S hS hD s hs hlt) fuel CopyState.init (le_refl _)

theorem clonePass_zeroFilled (dev : Device) (D S : Int) (hS : 0 < S) (hD : D + S < 2 ^ 63)
    (bad : Int → Bool) (hg : sectorGranular dev D S bad) (hwr : ∀ i, dev.writeErr i = none)
    (s : CopyState) (hinv : ZeroFilled S bad s) (hlt : s.offset < D) :
    ZeroFilled S bad (clonePass dev D S s).2 := by
  obtain ⟨h0, hdv, hlen, hun, hz⟩ := hinv
  obtain ⟨hgb, hgg⟩ := hg s.pass s.offset h0 hlt hdv
  have hlen2 := clonePass_dest_length dev D S hS (by omega) hwr s (by omega) h0 hlt hdv hlen
  have hold : ∀ (more : List Nat) (x : Int), 0 ≤ x → x + S ≤ s.offset → ∀ j : Nat, (j : Int) < S →
      (s.dest ++ more)[x.toNat + j]? = s.dest[x.toNat + j]? := by
    intro more x hx0 hxS j hj
    apply List.getElem?_append_left
    have : ((x.toNat + j : Nat) : Int) < (s.dest.length : Int) := by
      rw [Nat.cast_add, Int.toNat_of_nonneg hx0, hlen]; omega
    exact_mod_cast this
  rw [clonePass_aligned dev D S s hS (by omega) (by omega) h0 hlt hdv] at hlen2 ⊢
  split_ifs at hlen2 ⊢ with hsk hbad
  · exact ⟨h0, hdv, hlen, hun, hz⟩
  · have hb : bad s.offset = true := by
      cases hbo : bad s.offset with
      | true => rfl
      | false => exact absurd hbad (hgg hbo).1
    refine ⟨by simp only; omega, Dvd.dvd.add hdv (dvd_refl S), hlen2, ?_, ?_⟩
    · simp only
      rw [sectorsBelow_succ hS h0 hdv, List.filter_append, ← hun]
      simp [hb]
    · intro x hx
      simp only [List.mem_append, List.mem_singleton] at hx
      simp only [hwr, written]
      rcases hx with hx | hx
      · obtain ⟨hx0, hxS, hzx⟩ := hz x hx
        refine ⟨hx0, by omega, ?_⟩
        intro j hj
        rw [hold _ x hx0 hxS j hj]
        exact hzx j hj
      · subst hx
        refine ⟨h0, le_refl _, ?_⟩
        intro j hj
        have e : s.offset.toNat = s.dest.length := by
          have : ((s.offset.toNat : Nat) : Int) = (s.dest.length : Int) := by
            rw [Int.toNat_of_nonneg h0, hlen]
          exact_mod_cast this
        rw [e, List.getElem?_append_right (Nat.le_add_right _ _), Nat.add_sub_cancel_left,
          List.getElem?_replicate, if_pos]
        have : ((j : Nat) : Int) < ((S.toNat : Nat) : Int) := by
          rw [Int.toNat_of_nonneg (le_of_lt hS)]; exact hj
        exact_mod_cast this
  · have hb : bad s.offset = false := by
      cases hbo : bad s.offset with
      | false => rfl
      | true => exact absurd (hgb hbo) hbad
    obtain ⟨-, hmul, hgood⟩ := hgg hb
    obtain ⟨c, hc⟩ := hmul
    have hc0 : 0 ≤ c := by
      by_contra hneg
      have : S * c < 0 := mul_neg_of_pos_of_neg hS (by omega)
      omega
    have hcm : ((bytesAt dev D s.pass s.offset).length : Int) = ((c.toNat : Nat) : Int) * S := by
      rw [Int.toNat_of_nonneg hc0, hc, mul_comm]
    refine ⟨by simp only; omega, Dvd.dvd.add hdv ⟨c, hc⟩, hlen2, ?_, ?_⟩
    · simp only
      rw [hcm, sectorsBelow_filter_add hS h0 hdv bad c.toNat, ← hun]
      intro i hi
      apply hgood i
      rw [hcm]
      exact mul_lt_mul_of_pos_right (by exact_mod_cast hi) hS
    · intro x hx
      simp only [hwr, written]
      obtain ⟨hx0, hxS, hzx⟩ := hz x hx
      refine ⟨hx0, by omega, ?_⟩
      intro j hj
      rw [hold _ x hx0 hxS j hj]
      exact hzx j hj

theorem cloneLoop_zeroFilled (dev : Device) (D S : Int) (hS : 0 < S) (hD : D + S < 2 ^ 63)
    (bad : Int → Bool) (hg : sectorGranular dev D S bad) (hwr : ∀ i, dev.writeErr i = none)
    (fuel : Nat) : ZeroFilled S bad (cloneLoop dev D S fuel CopyState.init).2 :=
  cloneLoop_invariant dev D S (ZeroFilled S bad)
    (fun s hs hlt => clonePass_zeroFilled dev D S hS hD bad hg hwr s hs hlt)
    fuel CopyState.init
    ⟨le_refl _, dvd_zero S, rfl, by simp [CopyState.init, sectorsBelow],
      fun x hx => (by simp [CopyState.init] at hx)⟩

theorem goodRun_le (bad : Int → Bool) (S : Int) :
    ∀ (n : Nat) (o : Int), goodRun bad S n o ≤ n := by
  intro n
  induction n with
  | zero => intro o; simp [goodRun]
  | succ k ih =>
    intro o
    rw [goodRun]
    split_ifs
    · exact Nat.zero_le _
    · exact Nat.succ_le_succ (ih _)

theorem goodRun_good (bad : Int → Bool) (S : Int) :
    ∀ (n : Nat) (o : Int) (i : Nat), i < goodRun bad S n o → bad (o + (i : Int) * S) = false := by
  intro n
  induction n with
  | zero => intro o i hi; simp [goodRun] at hi
  | succ k ih =>
    intro o i hi
    rw [goodRun] at hi
    split_ifs at hi with hb
    · exact absurd hi (Nat.not_lt_zero _)
    · cases i with
      | zero => simpa using hb
      | succ j =>
        have := ih (o + S) j (Nat.lt_of_succ_lt_succ hi)
        have e : o + ((j + 1 : Nat) : Int) * S = o + S + (j : Int) * S := by push_cast; ring
        rw [e]
        exact this

theorem sectorGranular_sectorDevice (bad : Int → Bool) (D S : Int) (chunk : Nat) (hS : 0 < S) :
    sectorGranular (sectorDevice bad S chunk) D S bad := by
  intro pass offset _ _ _
  constructor
  · intro hb
    simp [failsAt, bytesAt, sectorDevice, hb]
  · intro hb
    have hST : ((S.toNat : Nat) : Int) = S := Int.toNat_of_nonneg (le_of_lt hS)
    have hg := goodRun_le bad S (min (toReadAt D offset) chunk / S.toNat) offset
    have hfit : goodRun bad S (min (toReadAt D offset) chunk / S.toNat) offset * S.toNat
        ≤ toReadAt D offset :=
      le_trans (Nat.mul_le_mul_right _ hg)
        (le_trans (Nat.div_mul_le_self _ _) (Nat.min_le_left _ _))
    have hbytes : bytesAt (sectorDevice bad S chunk) D pass offset
        = List.replicate
            (goodRun bad S (min (toReadAt D offset) chunk / S.toNat) offset * S.toNat) 255 := by
      simp only [bytesAt, sectorDevice, hb, Bool.false_eq_true, if_false]
      exact List.take_of_length_le (by rw [List.length_replicate]; exact hfit)
    have hlen : ((bytesAt (sectorDevice bad S chunk) D pass offset).length : Int)
        = (goodRun bad S (min (toReadAt D offset) chunk / S.toNat) offset : Int) * S := by
      rw [hbytes, List.length_replicate, Nat.cast_mul, hST]
    refine ⟨?_, ?_, ?_⟩
    · simp [failsAt, sectorDevice, hb]
    · rw [hlen]
      exact Dvd.intro_left _ rfl
    · intro i hi
      rw [hlen] at hi
      have hi2 : (i : Int) < (goodRun bad S (min (toReadAt D offset) chunk / S.toNat) offset : Int) :=
        lt_of_mul_lt_mul_right hi (le_of_lt hS)
      exact goodRun_good bad S _ offset i (by exact_mod_cast hi2)

/-- Claim C4, amended.  For `sectorSize > 0` and `diskSize + sectorSize < 2^63`.
Whenever the loop of `cloneDisk` is running, the seek of the next pass succeeds, its
read, at the offset `o` that the alignment correction gives, fails with zero bytes
and the write of that pass succeeds, the run does not abort, exactly `sectorSize`
zero bytes are appended to the destination, the offset advances from `o` by exactly
`sectorSize` and one substitution is recorded; a pass whose read is not taken for an
unreadable sector records none.  Consequently, when the device reports the
unreadable sectors of the source sector by sector (`sectorGranular`) and every
write succeeds, then after any number of passes the substitutions made are the
unreadable sectors below the offset, each once and in increasing order, so that
their number is the number of these unreadable sectors; the byte range of each
unreadable sector below the offset is all zero in the destination; the
destination holds as many bytes as the offset says; and a run that has finished
has its offset at or above `diskSize`. -/
theorem cloneDisk_zero_fill (dev : Device) (D S : Int) (hS : 0 < S) (hD : D + S < 2 ^ 63)
    (k : Nat) :
    ((cloneDisk dev false false D S k).1 = .running →
      dev.seekFails (cloneDisk dev false false D S k).2.pass
        (alignDown S (cloneDisk dev false false D S k).2.offset) = false →
      failsAt dev D (cloneDisk dev false false D S k).2.pass
        (alignDown S (cloneDisk dev false false D S k).2.offset) →
      dev.writeErr (cloneDisk dev false false D S k).2.pass = none →
      ((cloneDisk dev false false D S (k + 1)).1 = .running ∨
        (cloneDisk dev false false D S (k + 1)).1 = .returnedNil) ∧
      (cloneDisk dev false false D S (k + 1)).2.dest
        = (cloneDisk dev false false D S k).2.dest ++ List.replicate S.toNat 0 ∧
      (cloneDisk dev false false D S (k + 1)).2.offset
        = alignDown S (cloneDisk dev false false D S k).2.offset + S ∧
      (cloneDisk dev false false D S (k + 1)).2.unreadable
        = (cloneDisk dev false false D S k).2.unreadable
          ++ [alignDown S (cloneDisk dev false false D S k).2.offset]) ∧
    (¬ failsAt dev D (cloneDisk dev false false D S k).2.pass
        (alignDown S (cloneDisk dev false false D S k).2.offset) →
      (cloneDisk dev false false D S (k + 1)).2.unreadable
        = (cloneDisk dev false false D S k).2.unreadable) ∧
    (∀ bad : Int → Bool, sectorGranular dev D S bad → (∀ i, dev.writeErr i = none) →
      (cloneDisk dev false false D S k).2.unreadable
        = (sectorsBelow S (cloneDisk dev false false D S k).2.offset).filter bad ∧
      (cloneDisk dev false false D S k).2.unreadable.length
        = (sectorsBelow S (cloneDisk dev false false D S k).2.offset).countP bad ∧
      (∀ x, 0 ≤ x → S ∣ x → x < (cloneDisk dev false false D S k).2.offset → bad x = true →
        ∀ j : Nat, (j : Int) < S →
          (cloneDisk dev false false D S k).2.dest[x.toNat + j]? = some 0) ∧
      ((cloneDisk dev false false D S k).2.dest.length : Int)
        = (cloneDisk dev false false D S k).2.offset ∧
      ((cloneDisk dev false false D S k).1 = .returnedNil →
        D ≤ (cloneDisk dev false false D S k).2.offset)) := by
  have hc : ∀ k, cloneDisk dev false false D S k = cloneLoop dev D S k CopyState.init :=
    fun k => rfl
  rw [hc, hc]
  have h0 := cloneLoop_nonneg dev D S hS hD k
  have hsucc := cloneLoop_succ dev D S k CopyState.init
  have hexit := cloneLoop_exit dev D S k CopyState.init
  refine ⟨?_, ?_, ?_⟩
  · intro hrun hsk hbad hw
    have hlt := hexit.2 hrun
    obtain ⟨-, hao, -, -⟩ := align_facts hS h0
    have hp := clonePass_eq dev D S _ hS (by omega) (by omega) h0 hlt
    rw [alignDown_eq hS h0 (by omega)] at hsk hbad ⊢
    rw [hsk, if_neg (by simp), if_pos hbad] at hp
    rw [hsucc, if_pos hrun, cloneLoop_step dev D S 0 _ hlt, hp]
    simp only [if_true, cloneLoop, hw, written]
    refine ⟨?_, trivial, trivial, trivial⟩
    split_ifs
    · exact Or.inl rfl
    · exact Or.inr rfl
  · intro hgood
    rw [hsucc]
    by_cases hrun : (cloneLoop dev D S k CopyState.init).1 = .running
    · have hlt := hexit.2 hrun
      obtain ⟨-, hao, -, -⟩ := align_facts hS h0
      rw [alignDown_eq hS h0 (by omega)] at hgood
      rw [if_pos hrun, (cloneLoop_one dev D S _ hlt).1,
        clonePass_eq dev D S _ hS (by omega) (by omega) h0 hlt, if_neg hgood]
      split_ifs <;> rfl
    · rw [if_neg hrun]
  · intro bad hg hwr
    obtain ⟨-, hdv, hlen, hun, hz⟩ := cloneLoop_zeroFilled dev D S hS hD bad hg hwr k
    refine ⟨hun, ?_, ?_, hlen, hexit.1⟩
    · rw [hun, List.countP_eq_length_filter]
    · intro x hx0 hxd hxlt hb j hj
      have hmem : x ∈ (cloneLoop dev D S k CopyState.init).2.unreadable := by
        rw [hun, List.mem_filter]
        exact ⟨mem_sectorsBelow hS hdv hx0 hxd hxlt, hb⟩
      exact (hz x hmem).2.2 j hj

/-- Witness of C4 (amended): sector size 512, disk size 52224 (102 sectors), the
sector at offset 51200 always fails, and a read delivers up to 1024 bytes of the
readable sectors in a row from its offset on.  After 50 passes the loop is running
with the offset at 51200; pass 51 has its read fail, appends 512 zero bytes and
takes the offset to 51712.  The copy completes after 52 passes, exactly one
substitution happens, at 51200, and the destination bytes `[51200, 51712)` are all
zero. -/
theorem cloneDisk_zero_fill_witness :
    ((0 : Int) < 512 ∧ (52224 : Int) + 512 < 2 ^ 63) ∧
    ((cloneDisk (sectorDevice (fun x => decide (x = 51200)) 512 1024) false false 52224 512 50).2.offset
        = 51200 ∧
      (cloneDisk (sectorDevice (fun x => decide (x = 51200)) 512 1024) false false 52224 512 51).2.dest
        = (cloneDisk (sectorDevice (fun x => decide (x = 51200)) 512 1024) false false
            52224 512 50).2.dest ++ List.replicate (512 : Int).toNat 0 ∧
      (cloneDisk (sectorDevice (fun x => decide (x = 51200)) 512 1024) false false 52224 512 51).2.offset
        = alignDown 512 (cloneDisk (sectorDevice (fun x => decide (x = 51200)) 512 1024) false
            false 52224 512 50).2.offset + 512) ∧
    (cloneDisk (sectorDevice (fun x => decide (x = 51200)) 512 1024) false false 52224 512 52).1
      = .returnedNil ∧
    (cloneDisk (sectorDevice (fun x => decide (x = 51200)) 512 1024) false false 52224 512 52).2.unreadable
      = [51200] ∧
    (cloneDisk (sectorDevice (fun x => decide (x = 51200)) 512 1024) false false 52224 512
        52).2.unreadable.length
      = (sectorsBelow 512 (cloneDisk (sectorDevice (fun x => decide (x = 51200)) 512 1024) false
          false 52224 512 52).2.offset).countP (fun x => decide (x = 51200)) ∧
    ∀ j : Nat, (j : Int) < 512 →
      (cloneDisk (sectorDevice (fun x => decide (x = 51200)) 512 1024) false false 52224 512
        52).2.dest[(51200 : Int).toNat + j]? = some 0 :=
  ⟨by decide,
    ⟨by decide,
      ((cloneDisk_zero_fill (sectorDevice (fun x => decide (x = 51200)) 512 1024) 52224 512
        (by decide) (by decide) 50).1 (by decide) rfl (by decide) rfl).2.1,
      ((cloneDisk_zero_fill (sectorDevice (fun x => decide (x = 51200)) 512 1024) 52224 512
        (by decide) (by decide) 50).1 (by decide) rfl (by decide) rfl).2.2.1⟩,
    by decide, by decide,
    ((cloneDisk_zero_fill (sectorDevice (fun x => decide (x = 51200)) 512 1024) 52224 512
      (by decide) (by decide) 52).2.2 (fun x => decide (x = 51200))
      (sectorGranular_sectorDevice _ 52224 512 1024 (by decide)) (fun _ => rfl)).2.1,
    ((cloneDisk_zero_fill (sectorDevice (fun x => decide (x = 51200)) 512 1024) 52224 512
      (by decide) (by decide) 52).2.2 (fun x => decide (x = 51200))
      (sectorGranular_sectorDevice _ 52224 512 1024 (by decide)) (fun _ => rfl)).2.2.1
      51200 (by decide) (by decide) (by decide) (by decide)⟩

/-- Counterexample to C4 as stated, in two runs with sector size 512.
Disk size 52224, the sector at 51200 is the only unreadable one, and a read whose
range holds a byte of it fails as a whole with zero bytes (the read of sector 0
alone succeeds).  Every pass up to offset 51200 asks for all that is left of the
disk, so its read fails: the first pass puts 512 zero bytes in the place of the
readable sector 0, and the copy completes after 102 passes with 101 substitutions
instead of one.
Disk size 2048; the first read delivers 600 bytes, the second read, at offset 512
after the alignment correction, fails with zero bytes, the third delivers 1024
bytes.  The copy completes, the sector at 512 was the one substituted, and the
destination byte at 512 is 255, not zero: the zero bytes went to the range from 600
on. -/
theorem cloneDisk_zero_range_shifted :
    (((overlapDevice 51200 512 512).read 0 0 512).failed = false ∧
      (cloneDisk (overlapDevice 51200 512 512) false false 52224 512 1).2.unreadable = [0] ∧
      (cloneDisk (overlapDevice 51200 512 512) false false 52224 512 1).2.dest
        = List.replicate 512 0 ∧
      (cloneDisk (overlapDevice 51200 512 512) false false 52224 512 102).1 = .returnedNil ∧
      (cloneDisk (overlapDevice 51200 512 512) false false 52224 512 102).2.unreadable.length
        = 101 ∧
      (cloneDisk (overlapDevice 51200 512 512) false false 52224 512 102).2.unreadable.take 3
        = [0, 512, 1024]) ∧
    (cloneDisk (scriptDevice [⟨false, List.replicate 600 255⟩, ⟨true, []⟩,
        ⟨false, List.replicate 1024 255⟩] []) false false 2048 512 3).1 = .returnedNil ∧
    (cloneDisk (scriptDevice [⟨false, List.replicate 600 255⟩, ⟨true, []⟩,
        ⟨false, List.replicate 1024 255⟩] []) false false 2048 512 3).2.unreadable = [512] ∧
    (cloneDisk (scriptDevice [⟨false, List.replicate 600 255⟩, ⟨true, []⟩,
        ⟨false, List.replicate 1024 255⟩] []) false false 2048 512 3).2.dest[512]? = some 255 ∧
    (cloneDisk (scriptDevice [⟨false, List.replicate 600 255⟩, ⟨true, []⟩,
        ⟨false, List.replicate 1024 255⟩] []) false false 2048 512 3).2.dest[600]? = some 0 := by
  decide

/-- Claim C5, the raw-device variant diverges.  Disk size 1024, sector size 512, two
reads of 512 bytes each (bytes 1, then bytes 2); the write of the first pass fails
with no byte written.  The raw-device `cloneDisk` does not look at the result of
`out.Write`: it goes on to seek, read and write the second block and returns `nil`,
with a destination that holds the second block only.  The sequential `cloneDisk`,
given the same reads and the same failing first write, returns the write error
straight after the failed write. -/
theorem cloneDisk_ignores_write_error :
    (cloneDisk (scriptDevice [⟨false, List.replicate 512 1⟩, ⟨false, List.replicate 512 2⟩]
        [some 0, none]) false false 1024 512 2).1 = .returnedNil ∧
    (cloneDisk (scriptDevice [⟨false, List.replicate 512 1⟩, ⟨false, List.replicate 512 2⟩]
        [some 0, none]) false false 1024 512 2).2.dest = List.replicate 512 2 ∧
    (cloneDisk (scriptDevice [⟨false, List.replicate 512 1⟩, ⟨false, List.replicate 512 2⟩]
        [some 0, none]) false false 1024 512 2).2.calls
      = [.seek 0, .read 0 1024, .write (List.replicate 512 1),
         .seek 512, .read 512 512, .write (List.replicate 512 2)] ∧
    Linux.cloneDisk ⟨false, false,
        [⟨⟨List.replicate 512 1, .nil⟩, some 0⟩, ⟨⟨List.replicate 512 2, .nil⟩, none⟩,
         ⟨⟨[], .eof⟩, none⟩]⟩ 512
      = (.writeError, ⟨[], 0, [.read, .write (List.replicate 512 1)]⟩) := by
  decide

end Win

end DumpDisk
